import Mathlib

/-!
# A shallow embedding of the LSM key-value store

The Go sources `wal.go`, `decode.go`, `memtable.go` and `lsmDB.go` are
translated function by function.

Modelling conventions.

* A byte is a natural number (`Byte`); every byte the program itself
  produces is below 256.  A Go byte slice is modelled by its contents
  (`Bytes`), so the nil slice and the empty slice are both `[]`
  (they have the same length and are `bytes.Equal`).
* A Go `int` holding a length or a counter is a natural number; the
  conversion `uint32(n)` of `encode4BytesInt` is the explicit `% 2^32`.
* A file is the list of its bytes.  A file being read is represented by
  the bytes that remain after the read position.  `fileRead` follows
  `os.File.Read`: an empty buffer reads nothing and reports no error, a
  non-empty buffer at the end of the file reports `io.EOF`, and otherwise
  the read returns the bytes that are available, at most `1 << 30` of
  them in one call (possibly fewer than the buffer holds, the rest of the
  buffer stays zero), without an error.
* The ordered map `treemap.TreeMap[string, []byte]` is an external
  library; it is modelled by an association list kept in ascending key
  order (`treeSet`, `treeGet`).
* `lsmDB.Set`, `lsmDB.Del` and `lsmDB.flushToDisk` are the code on an
  operating system whose calls succeed; `flushToDiskWith` and `SetWith`
  are the same code with one call of the flush failing.  Other failures
  of the operating system, a missing file apart, are not modelled.  A
  run-time panic is the error `Err.panicked`.
-/

namespace LSM

abbrev Byte := Nat
abbrev Bytes := List Nat

/-- The error values of the program: `io.EOF`, the package level `Err...`
variables, a missing file, and a run-time panic.  `fuelOut` is the
result of a loop of the model that ran out of fuel; the loops are given
enough fuel, so it never occurs (see `searchLoop_fuel` and
`loadLoop_fuel`). -/
inductive Err
  | eof
  | keyNotFound
  | keyDeleted
  | corruptedFile
  | outdatedVersion
  | notExist
  | panicked
  | fuelOut
deriving DecidableEq, Repr

deriving instance DecidableEq for Except

/-! ## wal.go -/

abbrev SetOp : Byte := 1
abbrev DelOp : Byte := 2

structure Entry where
  op : Byte
  key : Bytes
  value : Bytes
deriving DecidableEq, Repr

/-- `encode4BytesInt`: `binary.BigEndian.PutUint32(encoded, uint32(n))`. -/
def encode4BytesInt (n : Nat) : Bytes :=
  let v := n % 4294967296
  [v / 16777216 % 256, v / 65536 % 256, v / 256 % 256, v % 256]

/-- `decode4BytesInt`: `int(binary.BigEndian.Uint32(b))`.  The program
only calls it on buffers of four bytes; shorter buffers (a panic in Go)
do not occur. -/
def decode4BytesInt : Bytes → Nat
  | b0 :: b1 :: b2 :: b3 :: _ => b0 * 16777216 + b1 * 65536 + b2 * 256 + b3
  | _ => 0

/-- `Entry.encode`. -/
def Entry.encode (entry : Entry) : Bytes :=
  let encoded := [entry.op] ++ encode4BytesInt entry.key.length ++ entry.key
  if entry.op = SetOp then
    encoded ++ encode4BytesInt entry.value.length ++ entry.value
  else
    encoded

/-- The concatenation of the encodings of a list of entries. -/
def encodeAll : List Entry → Bytes
  | [] => []
  | e :: es => e.encode ++ encodeAll es

/-! ## decode.go -/

/-- The number of bytes one `file.Read` with a buffer of `n` bytes asks of
the operating system: `os.File.Read` hands the buffer to
`internal/poll.(*FD).Read`, which cuts it to `maxRW = 1 << 30` bytes
before the `read` system call. -/
def readCount (n : Nat) : Nat := min n 1073741824

/-- `file.Read(buf)` with `buf := make([]byte, n)`: the buffer after the
call, the error, and the bytes that remain after the new read position.
The call transfers the bytes that are available, at most `readCount n`;
the rest of the buffer keeps the zeros `make` put there. -/
def fileRead (n : Nat) (file : Bytes) : Bytes × Option Err × Bytes :=
  if n = 0 then ([], none, file)
  else
    match file with
    | [] => (List.replicate n 0, some Err.eof, [])
    | _ :: _ =>
      (file.take (readCount n)
          ++ List.replicate (n - (file.take (readCount n)).length) 0,
        none, file.drop (readCount n))

/-- `readHeader`: magic number, entry count, smallest key, largest key
and version, or the first read error; with the remaining bytes. -/
def readHeader (file : Bytes) :
    Except Err (Bytes × Nat × Bytes × Bytes × Byte) × Bytes :=
  match fileRead 12 file with
  | (_, some e, f1) => (.error e, f1)
  | (part1, none, f1) =>
    let magicNumber := part1.take 4
    let entryCount := decode4BytesInt ((part1.drop 4).take 4)
    let lenSmallestKey := decode4BytesInt ((part1.drop 8).take 4)
    match fileRead lenSmallestKey f1 with
    | (_, some e, f2) => (.error e, f2)
    | (smallestKey, none, f2) =>
      match fileRead 4 f2 with
      | (_, some e, f3) => (.error e, f3)
      | (part2, none, f3) =>
        let lenLargestKey := decode4BytesInt part2
        match fileRead lenLargestKey f3 with
        | (_, some e, f4) => (.error e, f4)
        | (largestKey, none, f4) =>
          match fileRead 1 f4 with
          | (_, some e, f5) => (.error e, f5)
          | (version, none, f5) =>
            (.ok (magicNumber, entryCount, smallestKey, largestKey, version.headD 0), f5)

/-- `decodeNext`: operation byte, key and value of the next entry, or the
first read error; with the remaining bytes. -/
def decodeNext (file : Bytes) : Except Err (Byte × Bytes × Bytes) × Bytes :=
  match fileRead 1 file with
  | (_, some e, f1) => (.error e, f1)
  | (opPart, none, f1) =>
    let op := opPart.headD 0
    match fileRead 4 f1 with
    | (_, some e, f2) => (.error e, f2)
    | (keyLenPart, none, f2) =>
      let keyLen := decode4BytesInt keyLenPart
      match fileRead keyLen f2 with
      | (_, some e, f3) => (.error e, f3)
      | (key, none, f3) =>
        if op = DelOp then (.ok (op, key, []), f3)
        else
          match fileRead 4 f3 with
          | (_, some e, f4) => (.error e, f4)
          | (valueLenPart, none, f4) =>
            let valueLen := decode4BytesInt valueLenPart
            match fileRead valueLen f4 with
            | (_, some e, f5) => (.error e, f5)
            | (value, none, f5) => (.ok (op, key, value), f5)

/-! ## memtable.go -/

/-- `bytes.Compare`, which is also the order `<` of Go strings:
lexicographic order of the bytes. -/
def bytesCompare : Bytes → Bytes → Ordering
  | [], [] => .eq
  | [], _ :: _ => .lt
  | _ :: _, [] => .gt
  | a :: as, b :: bs =>
    if a < b then .lt else if b < a then .gt else bytesCompare as bs

/-- `TreeMap.Set`: insert or overwrite, keeping the keys ascending. -/
def treeSet : List (Bytes × Bytes) → Bytes → Bytes → List (Bytes × Bytes)
  | [], k, b => [(k, b)]
  | (k', b') :: rest, k, b =>
    match bytesCompare k k' with
    | .lt => (k, b) :: (k', b') :: rest
    | .eq => (k, b) :: rest
    | .gt => (k', b') :: treeSet rest k b

/-- `TreeMap.Get`. -/
def treeGet : List (Bytes × Bytes) → Bytes → Option Bytes
  | [], _ => none
  | (k', b') :: rest, k => if k = k' then some b' else treeGet rest k

structure MemTable where
  sortedMap : List (Bytes × Bytes)
deriving DecidableEq, Repr

def newMemTable : MemTable := ⟨[]⟩

/-- `MemTable.Set`. -/
def MemTable.Set (mem : MemTable) (key value : Bytes) : MemTable :=
  ⟨treeSet mem.sortedMap key ([SetOp] ++ value)⟩

/-- `parseInMemValue`; indexing byte 0 of an empty blob panics. -/
def parseInMemValue : Bytes → Except Err (Byte × Bytes)
  | [] => .error Err.panicked
  | b :: rest => if b = DelOp then .ok (b, []) else .ok (b, rest)

/-- `MemTable.Get`. -/
def MemTable.Get (mem : MemTable) (key : Bytes) : Except Err Bytes :=
  match treeGet mem.sortedMap key with
  | some valueWithOp =>
    match parseInMemValue valueWithOp with
    | .error e => .error e
    | .ok (op, actualValue) =>
      if op = SetOp then .ok actualValue
      else if op = DelOp then .error Err.keyDeleted
      else .error Err.keyNotFound
  | none => .error Err.keyNotFound

/-- `MemTable.writeOperation`. -/
def MemTable.writeOperation (mem : MemTable) (op : Byte) (key value : Bytes) : MemTable :=
  if op = SetOp then ⟨treeSet mem.sortedMap key ([SetOp] ++ value)⟩
  else if op = DelOp then ⟨treeSet mem.sortedMap key [DelOp]⟩
  else mem

/-- `MemTable.Del`. -/
def MemTable.Del (mem : MemTable) (key : Bytes) : MemTable :=
  ⟨treeSet mem.sortedMap key [DelOp]⟩

/-- `MemTable.makeEntry`; a key that is absent gives a nil blob, on which
`parseInMemValue` panics. -/
def MemTable.makeEntry (mem : MemTable) (key : Bytes) : Except Err Entry :=
  match parseInMemValue ((treeGet mem.sortedMap key).getD []) with
  | .error e => .error e
  | .ok (op, actualValue) => .ok ⟨op, key, actualValue⟩

/-- `MemTable.sizeInBytes`. -/
def MemTable.sizeInBytes (mem : MemTable) : Nat :=
  mem.sortedMap.foldl (fun size kv => size + (kv.1.length + kv.2.length)) 0

/-! ## lsmDB.go -/

/-- The engine together with the files it owns: `wal` is the content of
the WAL file, `metadata` the content of the metadata file (`none` when
the file does not exist), `sst n` the content of `f<n>.sst` (`none` when
the file does not exist).  `magicNumber` is a `[4]byte`. -/
structure lsmDB where
  memTable : MemTable
  wal : Bytes
  magicNumber : Byte × Byte × Byte × Byte
  version : Byte
  metadata : Option Bytes
  memSizeThreshold : Int
  sst : Nat → Option Bytes
  sstFilesNum : Nat

/-- The slice `lsmdb.magicNumber[:]`. -/
def magicBytes (m : Byte × Byte × Byte × Byte) : Bytes :=
  [m.1, m.2.1, m.2.2.1, m.2.2.2]

/-- Creating or truncating the file `f<n>.sst` and writing `content`. -/
def writeFile (sst : Nat → Option Bytes) (n : Nat) (content : Bytes) : Nat → Option Bytes :=
  fun i => if i = n then some content else sst i

/-- `lsmDB.setCurrentSSTIndex`. -/
def lsmDB.setCurrentSSTIndex (db : lsmDB) : Option Err × lsmDB :=
  match db.metadata with
  | none => (some Err.notExist, db)
  | some content =>
    if content.length ≠ 4 then (some Err.corruptedFile, db)
    else (none, { db with sstFilesNum := decode4BytesInt content })

/-- `lsmDB.updateMetadataFile`: the file is opened without `O_CREATE`. -/
def lsmDB.updateMetadataFile (db : lsmDB) : Option Err × lsmDB :=
  match db.metadata with
  | none => (some Err.notExist, db)
  | some _ => (none, { db with metadata := some (encode4BytesInt db.sstFilesNum) })

/-- `lsmDB.createHeader`; asking the iterator of an empty map for its key
panics. -/
def lsmDB.createHeader (db : lsmDB) : Except Err Bytes :=
  match db.memTable.sortedMap.head?, db.memTable.sortedMap.getLast? with
  | some first, some last =>
    .ok (magicBytes db.magicNumber ++ encode4BytesInt db.memTable.sortedMap.length
      ++ encode4BytesInt first.1.length ++ first.1
      ++ encode4BytesInt last.1.length ++ last.1 ++ [db.version])
  | _, _ => .error Err.panicked

/-- The loop of `flushToDisk` over the iterator positions `its`: the bytes
written to the SST file and the panic of `makeEntry`, if any. -/
def flushEntries (mem : MemTable) : List (Bytes × Bytes) → Bytes × Option Err
  | [] => ([], none)
  | it :: its =>
    match mem.makeEntry it.1 with
    | .error e => ([], some e)
    | .ok entry => ((entry.encode ++ (flushEntries mem its).1), (flushEntries mem its).2)

/-- `lsmDB.flushToDisk`. -/
def lsmDB.flushToDisk (db : lsmDB) : Option Err × lsmDB :=
  let newSSTFilesNum := db.sstFilesNum + 1
  match db.createHeader with
  | .error e => (some e, { db with sst := writeFile db.sst newSSTFilesNum [] })
  | .ok header =>
    let written := flushEntries db.memTable db.memTable.sortedMap
    let db1 := { db with sst := writeFile db.sst newSSTFilesNum (header ++ written.1) }
    match written.2 with
    | some e => (some e, db1)
    | none =>
      let db2 := { db1 with sstFilesNum := db1.sstFilesNum + 1 }
      match db2.updateMetadataFile with
      | (some e, db3) => (some e, db3)
      | (none, db3) => (none, { db3 with wal := [] })

/-- The loop of `loadWALtoMemTable`.  Each turn that does not return reads
at least one byte, so `fuel` above the length of the file is never used
up. -/
def loadLoop : Nat → Bytes → MemTable → Option Err × MemTable
  | 0, _, mem => (some Err.fuelOut, mem)
  | fuel + 1, file, mem =>
    match decodeNext file with
    | (.error e, _) => if e = Err.eof then (none, mem) else (some e, mem)
    | (.ok (op, key, value), rest) => loadLoop fuel rest (mem.writeOperation op key value)

/-- `lsmDB.loadWALtoMemTable`. -/
def lsmDB.loadWALtoMemTable (db : lsmDB) : Option Err × lsmDB :=
  let r := loadLoop (db.wal.length + 1) db.wal db.memTable
  (r.1, { db with memTable := r.2 })

/-- The scanning loop of `searchSSTFile`. -/
def searchLoop : Nat → Bytes → Bytes → Except Err Bytes
  | 0, _, _ => .error Err.fuelOut
  | fuel + 1, file, key =>
    match decodeNext file with
    | (.error e, _) => if e = Err.eof then .error Err.keyNotFound else .error e
    | (.ok (op, k, v), rest) =>
      if k = key then
        if op = DelOp then .error Err.keyDeleted else .ok v
      else searchLoop fuel rest key

/-- `lsmDB.searchSSTFile`. -/
def lsmDB.searchSSTFile (db : lsmDB) (sstFileNum : Nat) (key : Bytes) : Except Err Bytes :=
  match db.sst sstFileNum with
  | none => .error Err.notExist
  | some file =>
    match readHeader file with
    | (.error e, _) => .error e
    | (.ok (magicNumber, _, smallestKey, largestKey, version), rest) =>
      if magicNumber ≠ magicBytes db.magicNumber then .error Err.corruptedFile
      else if version ≠ db.version then .error Err.outdatedVersion
      else if bytesCompare key smallestKey = .lt ∨ bytesCompare key largestKey = .gt then
        .error Err.keyNotFound
      else searchLoop (rest.length + 1) rest key

/-- The loop `for i := lsmdb.sstFilesNum; i >= 1; i--` of
`searchAllSSTFiles`. -/
def searchFrom (db : lsmDB) (key : Bytes) : Nat → Except Err Bytes
  | 0 => .error Err.keyNotFound
  | i + 1 =>
    match db.searchSSTFile (i + 1) key with
    | .ok v => .ok v
    | .error e =>
      if e = Err.keyDeleted then .error Err.keyNotFound
      else if e = Err.keyNotFound then searchFrom db key i
      else .error e

/-- `lsmDB.searchAllSSTFiles`. -/
def lsmDB.searchAllSSTFiles (db : lsmDB) (key : Bytes) : Except Err Bytes × lsmDB :=
  match db.setCurrentSSTIndex with
  | (some e, db1) => (.error e, db1)
  | (none, db1) => (searchFrom db1 key db1.sstFilesNum, db1)

/-- `lsmDB.Get`.  A panic inside `MemTable.Get` is not an error value the
`switch` sees: it ends the call. -/
def lsmDB.Get (db : lsmDB) (key : Bytes) : Except Err Bytes × lsmDB :=
  match db.memTable.Get key with
  | .ok value => (.ok value, db)
  | .error e =>
    if e = Err.panicked then (.error Err.panicked, db)
    else if e = Err.keyDeleted then (.error Err.keyNotFound, db)
    else db.searchAllSSTFiles key

/-- `WAL.appendEntry`. -/
def lsmDB.appendEntry (db : lsmDB) (entry : Entry) : lsmDB :=
  { db with wal := db.wal ++ entry.encode }

/-- `lsmDB.Set`. -/
def lsmDB.Set (db : lsmDB) (key value : Bytes) : Option Err × lsmDB :=
  let db1 := db.appendEntry ⟨SetOp, key, value⟩
  let db2 := { db1 with memTable := db1.memTable.Set key value }
  if db2.memSizeThreshold ≤ (db2.memTable.sizeInBytes : Int) then
    match db2.flushToDisk with
    | (some e, db3) => (some e, db3)
    | (none, db3) => (none, { db3 with memTable := ⟨[]⟩ })
  else (none, db2)

/-- `lsmDB.Del`. -/
def lsmDB.Del (db : lsmDB) (key : Bytes) : Except Err Bytes × lsmDB :=
  match db.Get key with
  | (.error e, db1) => (.error e, db1)
  | (.ok v, db1) =>
    let db2 := db1.appendEntry ⟨DelOp, key, []⟩
    (.ok v, { db2 with memTable := db2.memTable.Del key })

/-- `lsmDB.Open`. -/
def lsmDB.Open (db : lsmDB) : Option Err × lsmDB :=
  let created :=
    match db.metadata with
    | none => ({ db with metadata := some [] }).updateMetadataFile
    | some _ => (none, db)
  match created with
  | (some e, db1) => (some e, db1)
  | (none, db1) =>
    match db1.setCurrentSSTIndex with
    | (some e, db2) => (some e, db2)
    | (none, db2) => db2.loadWALtoMemTable

/-- The engine `main` builds before `Open`, on a directory without files:
empty memtable, empty WAL, counter 0. -/
def newDB (magic : Byte × Byte × Byte × Byte) (version : Byte) (threshold : Int) : lsmDB :=
  { memTable := newMemTable, wal := [], magicNumber := magic, version := version,
    metadata := none, memSizeThreshold := threshold, sst := fun _ => none, sstFilesNum := 0 }

/-- The engine states reachable from an opened empty engine by successful
`Set` and `Del` calls with keys and values shorter than `2^32` bytes. -/
inductive Reachable : lsmDB → Prop
  | opened (magic : Byte × Byte × Byte × Byte) (version : Byte) (threshold : Int) :
      Reachable (newDB magic version threshold).Open.2
  | set (db : lsmDB) (key value : Bytes) :
      Reachable db → key.length < 4294967296 → value.length < 4294967296 →
      (db.Set key value).1 = none → Reachable (db.Set key value).2
  | del (db : lsmDB) (key : Bytes) (v : Bytes) :
      Reachable db → key.length < 4294967296 →
      (db.Del key).1 = .ok v → Reachable (db.Del key).2

/-- The big-endian value of a list of bytes, most significant byte first
(the reading of "4-byte big-endian" used to state the wire format). -/
def bigEndianValue (bs : Bytes) : Nat := bs.foldl (fun acc b => acc * 256 + b) 0

/-- `bs` is the 4-byte big-endian representation of `n`. -/
def IsBE32 (bs : Bytes) (n : Nat) : Prop :=
  bs.length = 4 ∧ (∀ b ∈ bs, b < 256) ∧ bigEndianValue bs = n

/-- A call on a memtable: `Set(key, value)` or `Del(key)`. -/
inductive MemCall
  | set (key value : Bytes)
  | del (key : Bytes)
deriving DecidableEq, Repr

/-- The key a call is about. -/
def MemCall.key : MemCall → Bytes
  | .set k _ => k
  | .del k => k

/-- Making one call on a memtable. -/
def MemCall.run (mem : MemTable) : MemCall → MemTable
  | .set k v => mem.Set k v
  | .del k => mem.Del k

/-- Making a sequence of calls, in order, on an empty memtable. -/
def runCalls (calls : List MemCall) : MemTable :=
  calls.foldl MemCall.run newMemTable

/-- The last call of a sequence that is about key `k`, if there is one. -/
def lastCallOn (calls : List MemCall) (k : Bytes) : Option MemCall :=
  calls.reverse.find? (fun c => c.key = k)

/-- What the last call on a key lets `Get` return. -/
def outcomeOfLast : Option MemCall → Except Err Bytes
  | some (.set _ v) => .ok v
  | some (.del _) => .error Err.keyDeleted
  | none => .error Err.keyNotFound

/-- The entry `makeEntry` builds at a position of the map iterator whose
blob is not empty: op tag, key, and the value behind the tag (nil for a
tombstone). -/
def blobEntry (it : Bytes × Bytes) : Entry :=
  match it.2 with
  | [] => ⟨0, it.1, []⟩
  | b :: rest => if b = DelOp then ⟨b, it.1, []⟩ else ⟨b, it.1, rest⟩

/-- The blobs `MemTable.Set`, `MemTable.Del` and `writeOperation` store:
the Set tag followed by a value shorter than 2^32 bytes, or the Del tag
alone. -/
def ValidBlob (b : Bytes) : Prop :=
  (∃ v, b = SetOp :: v ∧ v.length < 4294967296) ∨ b = [DelOp]

/-- Strictly ascending keys. -/
def Ascending (m : List (Bytes × Bytes)) : Prop :=
  m.Pairwise (fun a b => bytesCompare a.1 b.1 = .lt)

/-- The content of a memtable is well formed: keys strictly ascending and
shorter than 2^32 bytes, blobs as the memtable operations store them. -/
def MemOK (m : List (Bytes × Bytes)) : Prop :=
  Ascending m ∧ ∀ it ∈ m, it.1.length < 4294967296 ∧ ValidBlob it.2

/-- An entry as `Set` and `Del` log it: a Set or a Del with a nil value,
key and value shorter than 2^32 bytes. -/
def ValidEntry (e : Entry) : Prop :=
  (e.op = SetOp ∨ (e.op = DelOp ∧ e.value = []))
    ∧ e.key.length < 4294967296 ∧ e.value.length < 4294967296

/-- The header layout `createHeader` emits. -/
def headerOf (magic : Byte × Byte × Byte × Byte) (version : Byte) (count : Nat)
    (smallestKey largestKey : Bytes) : Bytes :=
  magicBytes magic ++ encode4BytesInt count
    ++ encode4BytesInt smallestKey.length ++ smallestKey
    ++ encode4BytesInt largestKey.length ++ largestKey ++ [version]

/-- The key at the first position of the iterator. -/
def firstKey (m : List (Bytes × Bytes)) : Bytes := (m.head?.map Prod.fst).getD []

/-- The key at the last position of the iterator. -/
def lastKey (m : List (Bytes × Bytes)) : Bytes := (m.getLast?.map Prod.fst).getD []

/-- The bytes of the SST file a flush of the (non-empty) map content `m`
writes. -/
def sstImage (magic : Byte × Byte × Byte × Byte) (version : Byte)
    (m : List (Bytes × Bytes)) : Bytes :=
  headerOf magic version m.length (firstKey m) (lastKey m) ++ encodeAll (m.map blobEntry)

/-- Replaying logged entries with `writeOperation`, in order. -/
def replay (es : List Entry) (mem : MemTable) : MemTable :=
  es.foldl (fun m e => m.writeOperation e.op e.key e.value) mem

/-- The invariant of the reachable engine states: the WAL is the
concatenation of the encodings of logged entries whose replay gives the
memtable; the metadata file holds the 4-byte encoding of the counter;
every SST file up to the counter is what a flush of a well-formed map
content wrote. -/
def Inv (db : lsmDB) : Prop :=
  (∃ es : List Entry, (∀ e ∈ es, ValidEntry e) ∧ db.wal = encodeAll es
      ∧ db.memTable = replay es newMemTable)
    ∧ db.metadata = some (encode4BytesInt db.sstFilesNum)
    ∧ ∀ i, 1 ≤ i → i ≤ db.sstFilesNum →
        ∃ m, MemOK m ∧ db.sst i = some (sstImage db.magicNumber db.version m)

/-- An opened empty engine with the configuration of `main` (threshold
100 bytes). -/
def sampleDB : lsmDB := (newDB (76, 83, 77, 68) 1 100).Open.2

/-- The engine `sampleDB` after `Set("key1", "value1")`: the value is in
the memtable. -/
def sampleBuffered : lsmDB :=
  (sampleDB.Set [107, 101, 121, 49] [118, 97, 108, 117, 101, 49]).2

/-- An opened empty engine with threshold 0 after `Set("k", "v")`: the Set
flushed, the value is in `f1.sst` only. -/
def sampleFlushed : lsmDB := ((newDB (76, 83, 77, 68) 1 0).Open.2.Set [107] [118]).2

/-- The engine in the middle of `Set`, after the write was logged in the
WAL and inserted in the memtable and before the threshold test. -/
def lsmDB.buffered (db : lsmDB) (key value : Bytes) : lsmDB :=
  { db.appendEntry ⟨SetOp, key, value⟩ with memTable := db.memTable.Set key value }

/-- A new engine built over the files of `db` (same WAL, metadata and SST
files, same magic number and version) with an empty memtable, any
threshold and any initial counter: the engine a fresh process builds
before it calls `Open`. -/
def restartDB (db : lsmDB) (threshold : Int) (counter : Nat) : lsmDB :=
  { memTable := newMemTable, wal := db.wal, magicNumber := db.magicNumber,
    version := db.version, metadata := db.metadata, memSizeThreshold := threshold,
    sst := db.sst, sstFilesNum := counter }

/-- The engine after `n` calls `Set("k", "v")` on an opened empty engine
with threshold 0: every call flushes. -/
def floodDB : Nat → lsmDB
  | 0 => (newDB (76, 83, 77, 68) 1 0).Open.2
  | n + 1 => ((floodDB n).Set [107] [118]).2

/-- The key and the value of a memtable call are shorter than 2^32
bytes. -/
def MemCall.Bounded : MemCall → Prop
  | .set k v => k.length < 4294967296 ∧ v.length < 4294967296
  | .del k => k.length < 4294967296

/-- The flush artifact: the flush of `db` left in the state `after` a file
`f<K+1>.sst` whose
bytes are the magic number, a 4-byte big-endian entry count, the
length-prefixed smallest key, the length-prefixed largest key, the
version and the encodings of `entries`, where the count is the number of
entries, the smallest key is the key of the first entry, the largest key
is the key of the last entry, the keys are strictly ascending, the
entries are those of the memtable in iteration order, and each entry
keeps the op tag, key and value the memtable holds for it (nil value for
a tombstone). -/
def FlushArtifact (db after : lsmDB) : Prop :=
  ∃ (entries : List Entry) (count skLen lkLen sk lk : Bytes),
    after.sst (db.sstFilesNum + 1)
        = some (magicBytes db.magicNumber ++ count ++ skLen ++ sk ++ lkLen ++ lk
            ++ [db.version] ++ encodeAll entries)
      ∧ IsBE32 count entries.length ∧ IsBE32 skLen sk.length ∧ IsBE32 lkLen lk.length
      ∧ entries.head?.map Entry.key = some sk
      ∧ entries.getLast?.map Entry.key = some lk
      ∧ (entries.map Entry.key).Pairwise (fun a b => bytesCompare a b = .lt)
      ∧ entries.map Entry.key = db.memTable.sortedMap.map Prod.fst
      ∧ ∀ e ∈ entries, (e.op = SetOp ∧ db.memTable.Get e.key = .ok e.value)
          ∨ (e.op = DelOp ∧ e.value = [] ∧ db.memTable.Get e.key = .error Err.keyDeleted)

/-- The calls `Set(u32(0), "")`, ..., `Set(u32(n-1), "")`: `n` Sets with
distinct 4-byte keys. -/
def manySets (n : Nat) : List MemCall :=
  (List.range n).map (fun i => MemCall.set (encode4BytesInt i) [])

/-- The engine `sampleDB` with the memtable that `n` Sets with distinct
4-byte keys build. -/
def crowdedDB (n : Nat) : lsmDB :=
  { sampleDB with memTable := runCalls (manySets n) }

/-- An entry an SST file or the WAL can hold in encoded form: op Set or
Del, key and value shorter than 2^32 bytes (the encoding of a Del leaves
out whatever value the entry carries). -/
def WellEncoded (e : Entry) : Prop :=
  (e.op = SetOp ∨ e.op = DelOp) ∧ e.key.length < 4294967296 ∧ e.value.length < 4294967296

/-- The result of a scan of a list of entries for `key`, as the lookup
protocol states it: the first entry with that key decides, a Set gives
its value, a Del gives `ErrKeyDeleted`; no such entry gives
`ErrKeyNotFound`. -/
def scanOutcome (es : List Entry) (key : Bytes) : Except Err Bytes :=
  match es.find? (fun e => e.key = key) with
  | some e => if e.op = SetOp then .ok e.value else .error Err.keyDeleted
  | none => .error Err.keyNotFound

/-- The engine `db` after the file `f<n>.sst` was given the content
`file`. -/
def withFile (db : lsmDB) (n : Nat) (file : Bytes) : lsmDB :=
  { db with sst := writeFile db.sst n file }

/-- The sum over the entries of a map content of
`len(key) + len(stored blob)`. -/
def blobSizes (m : List (Bytes × Bytes)) : Nat :=
  (m.map (fun it => it.1.length + it.2.length)).sum

/-- What the entry of key `k` adds to the size of a map content: nothing
when the key is absent. -/
def sizeShare (m : List (Bytes × Bytes)) (k : Bytes) : Nat :=
  match treeGet m k with
  | some blob => k.length + blob.length
  | none => 0

/-- The last entry of a list that is about key `k`, if there is one. -/
def lastEntryOn (es : List Entry) (k : Bytes) : Option Entry :=
  es.reverse.find? (fun e => e.key = k)

/-- What the last logged operation on a key lets `MemTable.Get` return:
the value of a Set, `ErrKeyDeleted` for a Del (a tombstone),
`ErrKeyNotFound` when no operation was about the key. -/
def outcomeOfLastEntry : Option Entry → Except Err Bytes
  | some e => if e.op = SetOp then .ok e.value else .error Err.keyDeleted
  | none => .error Err.keyNotFound

/-- The engine `db` with the WAL content `wal`. -/
def withWal (db : lsmDB) (wal : Bytes) : lsmDB := { db with wal := wal }

/-- The WAL of scenario (f): `Set("key1", "value1")`,
`Set("key2", "value2")`, `Del("key1")`. -/
def sampleLog : List Entry :=
  [⟨SetOp, [107, 101, 121, 49], [118, 97, 108, 117, 101, 49]⟩,
   ⟨SetOp, [107, 101, 121, 50], [118, 97, 108, 117, 101, 50]⟩,
   ⟨DelOp, [107, 101, 121, 49], []⟩]

/-- The engine states reached from an engine with an empty WAL by
successful `Set` and `Del` calls, together with the operations accepted
since the last flush, in call order: a `Set` that does not flush and a
`Del` add their entry, a `Set` that flushes starts the list anew. -/
inductive WalLog : lsmDB → List Entry → Prop
  | start (db : lsmDB) : db.wal = [] → WalLog db []
  | setKept (db : lsmDB) (log : List Entry) (key value : Bytes) :
      WalLog db log → (db.Set key value).1 = none →
      ((db.memTable.Set key value).sizeInBytes : Int) < db.memSizeThreshold →
      WalLog (db.Set key value).2 (log ++ [⟨SetOp, key, value⟩])
  | setFlushed (db : lsmDB) (log : List Entry) (key value : Bytes) :
      WalLog db log → (db.Set key value).1 = none →
      db.memSizeThreshold ≤ ((db.memTable.Set key value).sizeInBytes : Int) →
      WalLog (db.Set key value).2 []
  | del (db : lsmDB) (log : List Entry) (key v : Bytes) :
      WalLog db log → (db.Del key).1 = .ok v →
      WalLog (db.Del key).2 (log ++ [⟨DelOp, key, []⟩])

/-- Metadata consistency of an engine state: the metadata file holds the
4-byte big-endian representation of the in-memory counter, and the SST
files that exist are exactly `f1.sst`, ..., `f<K>.sst` for that counter
`K`. -/
def MetadataConsistent (db : lsmDB) : Prop :=
  (∃ c, db.metadata = some c ∧ IsBE32 c db.sstFilesNum)
    ∧ ∀ i, db.sst i ≠ none ↔ (1 ≤ i ∧ i ≤ db.sstFilesNum)

/-- The sum over the entries of a map content of `len(key) + len(value)`,
the value being the stored blob without its op tag byte. -/
def valueSizes (m : List (Bytes × Bytes)) : Nat :=
  (m.map (fun it => it.1.length + it.2.tail.length)).sum

/-- A call on a memtable: `Set(key, value)`, `Del(key)` or
`writeOperation(op, key, value)` with any op byte. -/
inductive MemStep
  | set (key value : Bytes)
  | del (key : Bytes)
  | write (op : Byte) (key value : Bytes)
deriving DecidableEq, Repr

/-- Making one call on a memtable. -/
def MemStep.run (mem : MemTable) : MemStep → MemTable
  | .set k v => mem.Set k v
  | .del k => mem.Del k
  | .write op k v => mem.writeOperation op k v

/-- Making a sequence of calls, in order, on an empty memtable. -/
def runSteps (steps : List MemStep) : MemTable :=
  steps.foldl MemStep.run newMemTable

/-- A stored blob is not empty and its first byte is the Set tag or the
Del tag. -/
def Tagged (blob : Bytes) : Prop :=
  ∃ b rest, blob = b :: rest ∧ (b = SetOp ∨ b = DelOp)

/-- The blob `writeOperation` stores for a logged entry. -/
def blobOf (e : Entry) : Bytes :=
  if e.op = SetOp then [SetOp] ++ e.value else [DelOp]

/-- An engine whose WAL is that of scenario (f) and whose memtable already
holds `"key2"` and `"key3"`. -/
def sampleReplayDB : lsmDB :=
  { withWal sampleDB (encodeAll sampleLog) with
    memTable := (newMemTable.Set [107, 101, 121, 50] [1]).Set [107, 101, 121, 51] [2] }

/-- The call of `flushToDisk` at which the operating system reports a
failure: creating the SST file (no file is created), writing the header
(`n` bytes reach the file), writing the entry at position `i` of the
iteration (`n` bytes of it reach the file), opening the metadata file in
`updateMetadataFile` (the file is left as it was), writing the metadata
file (it was truncated, `n` bytes reach it), closing the WAL handle in
`WAL.clear`, and reopening the WAL in `WAL.clear` (the file is not
truncated). -/
inductive FlushFault
  | createFile
  | writeHeader (n : Nat)
  | writeEntry (i n : Nat)
  | openMetadata
  | writeMetadata (n : Nat)
  | closeWal
  | reopenWal
deriving DecidableEq, Repr

/-- The position and byte count of a failing entry write, if that is the
fault. -/
def FlushFault.entry : Option FlushFault → Option (Nat × Nat)
  | some (.writeEntry i n) => some (i, n)
  | _ => none

/-- The loop of `flushToDisk` over the iterator positions `its` when the
write of the entry at position `fault.1` fails with error `e` after
`fault.2` bytes: the bytes that reached the SST file and the error, if
any. -/
def flushEntriesWith (mem : MemTable) (e : Err) :
    Option (Nat × Nat) → List (Bytes × Bytes) → Bytes × Option Err
  | _, [] => ([], none)
  | fault, it :: its =>
    match mem.makeEntry it.1 with
    | .error p => ([], some p)
    | .ok entry =>
      match fault with
      | some (0, n) => (entry.encode.take n, some e)
      | some (i + 1, n) =>
        (entry.encode ++ (flushEntriesWith mem e (some (i, n)) its).1,
          (flushEntriesWith mem e (some (i, n)) its).2)
      | none =>
        (entry.encode ++ (flushEntriesWith mem e none its).1,
          (flushEntriesWith mem e none its).2)

/-- `lsmDB.flushToDisk` with an operating system that fails at the call
`fault` with the error `e` (and does not fail when `fault` is `none`). -/
def lsmDB.flushToDiskWith (db : lsmDB) (fault : Option FlushFault) (e : Err) :
    Option Err × lsmDB :=
  let newSSTFilesNum := db.sstFilesNum + 1
  match fault with
  | some .createFile => (some e, db)
  | _ =>
    match db.createHeader with
    | .error p => (some p, { db with sst := writeFile db.sst newSSTFilesNum [] })
    | .ok header =>
      match fault with
      | some (.writeHeader n) =>
        (some e, { db with sst := writeFile db.sst newSSTFilesNum (header.take n) })
      | _ =>
        let written := flushEntriesWith db.memTable e (FlushFault.entry fault)
          db.memTable.sortedMap
        let db1 := { db with sst := writeFile db.sst newSSTFilesNum (header ++ written.1) }
        match written.2 with
        | some err => (some err, db1)
        | none =>
          let db2 := { db1 with sstFilesNum := db1.sstFilesNum + 1 }
          match fault with
          | some .openMetadata => (some e, db2)
          | some (.writeMetadata n) =>
            match db2.metadata with
            | none => (some Err.notExist, db2)
            | some _ =>
              (some e, { db2 with metadata := some ((encode4BytesInt db2.sstFilesNum).take n) })
          | _ =>
            match db2.updateMetadataFile with
            | (some err, db3) => (some err, db3)
            | (none, db3) =>
              match fault with
              | some .closeWal => (some e, db3)
              | some .reopenWal => (some e, db3)
              | _ => (none, { db3 with wal := [] })

/-- `lsmDB.Set` with an operating system that fails at the call `fault`
of the flush with the error `e`. -/
def lsmDB.SetWith (db : lsmDB) (fault : Option FlushFault) (e : Err) (key value : Bytes) :
    Option Err × lsmDB :=
  let db1 := db.appendEntry ⟨SetOp, key, value⟩
  let db2 := { db1 with memTable := db1.memTable.Set key value }
  if db2.memSizeThreshold ≤ (db2.memTable.sizeInBytes : Int) then
    match db2.flushToDiskWith fault e with
    | (some err, db3) => (some err, db3)
    | (none, db3) => (none, { db3 with memTable := ⟨[]⟩ })
  else (none, db2)

/-- The engine `sampleBuffered` after `Set("key2", "value2")`: the
memtable of scenario (d), with two entries. -/
def sampleFilled : lsmDB :=
  (sampleBuffered.Set [107, 101, 121, 50] [118, 97, 108, 117, 101, 50]).2

/-- A byte string of `2^30 + 1` bytes, all `0x01`: one byte more than one
`file.Read` transfers. -/
def longBytes : Bytes := List.replicate 1073741824 1 ++ [1]

/-- The first `2^30` bytes of `longBytes` followed by a zero byte: the
buffer a single `file.Read` of `2^30 + 1` bytes leaves when the stream
holds `longBytes`. -/
def cutBytes : Bytes := List.replicate 1073741824 1 ++ [0]

/-- An opened empty engine whose threshold, `2^32` bytes, is above the
size of a memtable that holds `longBytes`. -/
def roomyDB : lsmDB := (newDB (76, 83, 77, 68) 1 4294967296).Open.2

/-- The engine `sampleDB` with the memtable that `Set(k0, "a")` and
`Set(key, "b")` build, `k0` being the key of one zero byte. -/
def wideOf (key : Bytes) : lsmDB :=
  { sampleDB with memTable := (newMemTable.Set [0] [97]).Set key [98] }

/-- The engine `wideOf longBytes`: its memtable holds the key of one zero
byte and the key `longBytes`. -/
def wideDB : lsmDB := wideOf longBytes

/-! # Theorems -/

/-! ## The codec and the ordered map -/

theorem encode4BytesInt_length (n : Nat) : (encode4BytesInt n).length = 4 := rfl

theorem decode_encode4BytesInt (n : Nat) (h : n < 4294967296) :
    decode4BytesInt (encode4BytesInt n) = n := by
  simp only [encode4BytesInt, decode4BytesInt]
  omega

theorem readCount_of_le (n : Nat) (h : n ≤ 1073741824) : readCount n = n :=
  Nat.min_eq_left h

/-- A read of at most `2^30` bytes that are all available fills the
buffer. -/
theorem fileRead_append (xs rest : Bytes) (h : xs.length ≤ 1073741824) :
    fileRead xs.length (xs ++ rest) = (xs, none, rest) := by
  cases xs with
  | nil => simp [fileRead]
  | cons x xs =>
    have hc : readCount (xs.length + 1) = xs.length + 1 := readCount_of_le _ h
    simp [fileRead, hc]

theorem fileRead_encode4 (n : Nat) (rest : Bytes) :
    fileRead 4 (encode4BytesInt n ++ rest) = (encode4BytesInt n, none, rest) :=
  fileRead_append (encode4BytesInt n) rest (by simp [encode4BytesInt_length])

theorem fileRead_one (b : Byte) (rest : Bytes) :
    fileRead 1 (b :: rest) = ([b], none, rest) :=
  fileRead_append [b] rest (by simp)

theorem fileRead_key (n : Nat) (h : n ≤ 1073741824) (xs rest : Bytes) (hx : xs.length = n) :
    fileRead (decode4BytesInt (encode4BytesInt n)) (xs ++ rest) = (xs, none, rest) := by
  rw [decode_encode4BytesInt n (by omega), ← hx]
  exact fileRead_append xs rest (by omega)

theorem encode_set (key value : Bytes) :
    (Entry.mk SetOp key value).encode
      = SetOp :: (encode4BytesInt key.length ++ (key ++ (encode4BytesInt value.length ++ value))) := by
  simp [Entry.encode]

theorem encode_del (key value : Bytes) :
    (Entry.mk DelOp key value).encode = DelOp :: (encode4BytesInt key.length ++ key) := by
  simp [Entry.encode]

theorem encode4BytesInt_isBE32 (n : Nat) (h : n < 4294967296) : IsBE32 (encode4BytesInt n) n := by
  refine ⟨rfl, ?_, ?_⟩
  · intro b hb
    simp only [encode4BytesInt, List.mem_cons, List.mem_singleton, List.not_mem_nil, or_false] at hb
    omega
  · simp only [encode4BytesInt, bigEndianValue, List.foldl]
    omega

theorem bytesCompare_eq_iff (a b : Bytes) : bytesCompare a b = .eq ↔ a = b := by
  induction a generalizing b with
  | nil => cases b <;> simp [bytesCompare]
  | cons x xs ih =>
    cases b with
    | nil => simp [bytesCompare]
    | cons y ys =>
      simp only [bytesCompare, List.cons.injEq]
      split_ifs with h1 h2
      · simp; omega
      · simp; omega
      · rw [ih]
        constructor
        · intro h; exact ⟨by omega, h⟩
        · intro h; exact h.2

theorem bytesCompare_self (a : Bytes) : bytesCompare a a = .eq :=
  (bytesCompare_eq_iff a a).2 rfl

theorem bytesCompare_gt_iff (a b : Bytes) : bytesCompare a b = .gt ↔ bytesCompare b a = .lt := by
  induction a generalizing b with
  | nil => cases b <;> simp [bytesCompare]
  | cons x xs ih =>
    cases b with
    | nil => simp [bytesCompare]
    | cons y ys =>
      simp only [bytesCompare]
      split_ifs <;> first | omega | simp | exact ih ys

theorem bytesCompare_lt_trans (a b c : Bytes)
    (hab : bytesCompare a b = .lt) (hbc : bytesCompare b c = .lt) : bytesCompare a c = .lt := by
  induction a generalizing b c with
  | nil =>
    cases c with
    | nil => cases b <;> simp [bytesCompare] at hab hbc
    | cons z zs => simp [bytesCompare]
  | cons x xs ih =>
    cases b with
    | nil => simp [bytesCompare] at hab
    | cons y ys =>
      cases c with
      | nil => simp [bytesCompare] at hbc
      | cons z zs =>
        simp only [bytesCompare] at hab hbc ⊢
        split_ifs at hab hbc ⊢ with h1 h2 h3 h4 h5 h6 <;>
          first | rfl | omega | exact ih ys zs hab hbc

theorem treeGet_treeSet (m : List (Bytes × Bytes)) (k b k' : Bytes) :
    treeGet (treeSet m k b) k' = if k' = k then some b else treeGet m k' := by
  induction m with
  | nil => simp [treeSet, treeGet]
  | cons hd tl ih =>
    obtain ⟨k2, b2⟩ := hd
    simp only [treeSet]
    cases hc : bytesCompare k k2 with
    | lt => simp [treeGet]
    | eq =>
      have hk : k = k2 := (bytesCompare_eq_iff k k2).1 hc
      subst hk
      simp only [treeGet]
      split_ifs <;> rfl
    | gt =>
      have hne : k ≠ k2 := by
        intro h
        rw [h, bytesCompare_self] at hc
        cases hc
      simp only [treeGet, ih]
      by_cases h1 : k' = k
      · subst h1
        simp [hne]
      · simp [h1]

/-! ## The entry codec (C6, C7) -/

/-- A read of more than `2^30` bytes is short: it transfers the first
`2^30` bytes `xs`, leaves the rest of the buffer zero, reports no error
and leaves the further bytes `ys` of the field unread. -/
theorem fileRead_short (xs ys rest : Bytes) (hx : xs.length = 1073741824) (hy : ys ≠ []) :
    fileRead (xs.length + ys.length) (xs ++ ys ++ rest)
      = (xs ++ List.replicate ys.length 0, none, ys ++ rest) := by
  have hpos : 0 < ys.length := List.length_pos.2 hy
  have hc : readCount (xs.length + ys.length) = xs.length := by
    unfold readCount
    rw [hx]
    exact Nat.min_eq_right (Nat.le_add_right _ _)
  have hn : ¬ xs.length + ys.length = 0 := by omega
  cases hxs : xs with
  | nil => rw [hxs] at hx; simp at hx
  | cons x xt =>
    rw [← hxs]
    have hfile : xs ++ ys ++ rest = x :: (xt ++ ys ++ rest) := by rw [hxs]; rfl
    unfold fileRead
    rw [if_neg hn, hfile]
    simp only
    rw [← hfile, hc, List.append_assoc, List.take_left, List.drop_left]
    simp

/-- The defect in `decodeNext`: the value of a Set entry that is longer
than `2^30` bytes is read by one `file.Read`, whose byte count is dropped;
the entry comes back with the first `2^30` bytes `xs` of the value
followed by zeros, and the bytes `ys` of the value that were not
transferred are left in the stream. -/
theorem decodeNext_short_value (key xs ys rest : Bytes) (hk : key.length ≤ 1073741824)
    (hx : xs.length = 1073741824) (hy : ys ≠ []) (hlen : (xs ++ ys).length < 4294967296) :
    decodeNext ((Entry.mk SetOp key (xs ++ ys)).encode ++ rest)
      = (.ok (SetOp, key, xs ++ List.replicate ys.length 0), ys ++ rest) := by
  rw [encode_set]
  simp only [List.cons_append, List.append_assoc]
  unfold decodeNext
  simp only [fileRead_one, fileRead_encode4, fileRead_key _ hk _ _ rfl, List.headD_cons,
    decode_encode4BytesInt _ hlen]
  have hs := fileRead_short xs ys rest hx hy
  rw [List.append_assoc] at hs
  rw [List.length_append, hs]
  simp

theorem longBytes_length : longBytes.length = 1073741825 := by
  unfold longBytes
  rw [List.length_append, List.length_replicate]
  rfl

theorem cutBytes_ne : cutBytes ≠ longBytes := by
  unfold cutBytes longBytes
  intro h
  have := List.append_cancel_left h
  simp at this

/-- C6 fails on the code: for the entry `Set("k", v)` whose value `v` is
`2^30 + 1` bytes `0x01`, `decodeNext` on the encoding followed by the
byte 9 returns no error and the value `cutBytes`, whose last byte is 0,
and leaves the last byte of the value before the further byte: one byte
less than the encoding was consumed.  `os.File.Read` transfers at most
`2^30` bytes in one call, and `decodeNext` drops the byte count. -/
theorem decodeNext_value_cut :
    longBytes.length = 1073741825
      ∧ decodeNext ((Entry.mk SetOp [107] longBytes).encode ++ [9])
        = (.ok (SetOp, [107], cutBytes), [1, 9])
      ∧ cutBytes ≠ longBytes :=
  ⟨longBytes_length,
    decodeNext_short_value [107] (List.replicate 1073741824 1) [1] [9] (by decide)
      (List.length_replicate _ _) (by simp)
      (by rw [List.length_append, List.length_replicate]; decide),
    cutBytes_ne⟩

/-- C7: for an entry with key and value shorter than 2^32 bytes,
`Entry.encode` is 0x01, the 4-byte big-endian key length, the key, the
4-byte big-endian value length and the value when the op is Set (length
9 + len(key) + len(value)), and 0x02, the 4-byte big-endian key length
and the key when the op is Del, whatever value the entry carries (length
5 + len(key)). -/
theorem encode_wire_format (e : Entry)
    (hk : e.key.length < 4294967296) (hv : e.value.length < 4294967296) :
    (e.op = SetOp → ∃ kl vl, IsBE32 kl e.key.length ∧ IsBE32 vl e.value.length
        ∧ e.encode = [1] ++ kl ++ e.key ++ vl ++ e.value
        ∧ e.encode.length = 9 + e.key.length + e.value.length)
      ∧ (e.op = DelOp → ∃ kl, IsBE32 kl e.key.length
        ∧ e.encode = [2] ++ kl ++ e.key
        ∧ e.encode.length = 5 + e.key.length) := by
  obtain ⟨op, key, value⟩ := e
  simp only at hk hv
  constructor
  · intro h
    simp only at h
    subst h
    refine ⟨encode4BytesInt key.length, encode4BytesInt value.length,
      encode4BytesInt_isBE32 _ hk, encode4BytesInt_isBE32 _ hv, ?_, ?_⟩
    · rw [encode_set]; simp
    · rw [encode_set]; simp [encode4BytesInt_length]; omega
  · intro h
    simp only at h
    subst h
    refine ⟨encode4BytesInt key.length, encode4BytesInt_isBE32 _ hk, ?_, ?_⟩
    · rw [encode_del]; simp
    · rw [encode_del]; simp [encode4BytesInt_length]; omega

/-- C7 at a Del entry for the key `"key"` that carries a value: the value is not emitted. -/
theorem encode_wire_format_witness :
    (Entry.mk DelOp [107, 101, 121] [5]).encode = [2, 0, 0, 0, 3, 107, 101, 121]
      ∧ (Entry.mk DelOp [107, 101, 121] [5]).encode.length = 5 + 3 := by
  obtain ⟨kl, hkl, henc, hlen⟩ :=
    (encode_wire_format ⟨DelOp, [107, 101, 121], [5]⟩ (by decide) (by decide)).2 rfl
  exact ⟨by decide, hlen⟩

/-! ## The memtable (C8) -/

theorem get_set_same (mem : MemTable) (k v : Bytes) : (mem.Set k v).Get k = .ok v := by
  simp [MemTable.Get, MemTable.Set, treeGet_treeSet, parseInMemValue]

theorem get_del_same (mem : MemTable) (k : Bytes) : (mem.Del k).Get k = .error Err.keyDeleted := by
  simp [MemTable.Get, MemTable.Del, treeGet_treeSet, parseInMemValue]

theorem get_run_other (mem : MemTable) (c : MemCall) (k : Bytes) (h : c.key ≠ k) :
    (c.run mem).Get k = mem.Get k := by
  have h' : k ≠ c.key := fun e => h e.symm
  cases c with
  | set k2 v => simp only [MemCall.key] at h'; simp [MemCall.run, MemTable.Get, MemTable.Set, treeGet_treeSet, h']
  | del k2 => simp only [MemCall.key] at h'; simp [MemCall.run, MemTable.Get, MemTable.Del, treeGet_treeSet, h']

/-- C8: after any sequence of `MemTable.Set` and `MemTable.Del` calls on an
empty memtable, `MemTable.Get(k)` returns the value of the last call on
`k` when that call was a Set, `ErrKeyDeleted` when it was a Del, and
`ErrKeyNotFound` when no call was about `k`; and a further call on another
key does not change the result for `k`. -/
theorem memtable_last_write_wins (calls : List MemCall) (k : Bytes) :
    (runCalls calls).Get k = outcomeOfLast (lastCallOn calls k)
      ∧ ∀ c : MemCall, c.key ≠ k → (c.run (runCalls calls)).Get k = (runCalls calls).Get k := by
  refine ⟨?_, fun c hc => get_run_other _ c k hc⟩
  induction calls using List.reverseRecOn with
  | nil => rfl
  | append_singleton cs c ih =>
    have hrun : runCalls (cs ++ [c]) = c.run (runCalls cs) := by
      simp [runCalls, List.foldl_append]
    rw [hrun]
    by_cases hc : c.key = k
    · have hlast : lastCallOn (cs ++ [c]) k = some c := by
        simp [lastCallOn, List.find?, hc]
      rw [hlast]
      cases c with
      | set k2 v =>
        simp only [MemCall.key] at hc
        subst hc
        exact get_set_same _ _ _
      | del k2 =>
        simp only [MemCall.key] at hc
        subst hc
        exact get_del_same _ _
    · have hlast : lastCallOn (cs ++ [c]) k = lastCallOn cs k := by
        simp [lastCallOn, List.find?, hc]
      rw [hlast, get_run_other _ c k hc, ih]

/-! ## Well-formed memtables -/

theorem bytesCompare_lt_ne (a b : Bytes) (h : bytesCompare a b = .lt) : a ≠ b := by
  intro e
  rw [e, bytesCompare_self] at h
  cases h

theorem mem_treeSet (m : List (Bytes × Bytes)) (k b : Bytes) (x : Bytes × Bytes)
    (hx : x ∈ treeSet m k b) : x = (k, b) ∨ x ∈ m := by
  induction m with
  | nil => simpa [treeSet] using hx
  | cons hd tl ih =>
    obtain ⟨k2, b2⟩ := hd
    simp only [treeSet] at hx
    cases hc : bytesCompare k k2 with
    | lt => rw [hc] at hx; simpa using hx
    | eq =>
      rw [hc] at hx
      simp only [List.mem_cons] at hx ⊢
      rcases hx with h | h <;> simp [h]
    | gt =>
      rw [hc] at hx
      simp only [List.mem_cons] at hx ⊢
      rcases hx with h | h
      · simp [h]
      · rcases ih h with h2 | h2 <;> simp [h2]

theorem treeSet_ne_nil (m : List (Bytes × Bytes)) (k b : Bytes) : treeSet m k b ≠ [] := by
  cases m with
  | nil => simp [treeSet]
  | cons hd tl =>
    obtain ⟨k2, b2⟩ := hd
    simp only [treeSet]
    cases bytesCompare k k2 <;> simp

theorem ascending_treeSet (m : List (Bytes × Bytes)) (k b : Bytes) (h : Ascending m) :
    Ascending (treeSet m k b) := by
  induction m with
  | nil => simp [treeSet, Ascending]
  | cons hd tl ih =>
    obtain ⟨k2, b2⟩ := hd
    unfold Ascending at h ih ⊢
    rw [List.pairwise_cons] at h
    simp only [treeSet]
    cases hc : bytesCompare k k2 with
    | lt =>
      simp only
      rw [List.pairwise_cons, List.pairwise_cons]
      refine ⟨?_, h.1, h.2⟩
      intro x hx
      rcases List.mem_cons.1 hx with hx | hx
      · rw [hx]; exact hc
      · exact bytesCompare_lt_trans _ _ _ hc (h.1 x hx)
    | eq =>
      have hk : k = k2 := (bytesCompare_eq_iff k k2).1 hc
      subst hk
      simp only
      rw [List.pairwise_cons]
      exact ⟨h.1, h.2⟩
    | gt =>
      simp only
      rw [List.pairwise_cons]
      refine ⟨?_, ih h.2⟩
      intro x hx
      rcases mem_treeSet tl k b x hx with hx | hx
      · rw [hx]; exact (bytesCompare_gt_iff k k2).1 hc
      · exact h.1 x hx

theorem memOK_nil : MemOK [] := by
  simp [MemOK, Ascending]

theorem memOK_treeSet (m : List (Bytes × Bytes)) (k b : Bytes) (h : MemOK m)
    (hk : k.length < 4294967296) (hb : ValidBlob b) : MemOK (treeSet m k b) := by
  refine ⟨ascending_treeSet m k b h.1, ?_⟩
  intro it hit
  rcases mem_treeSet m k b it hit with e | hm
  · subst e; exact ⟨hk, hb⟩
  · exact h.2 it hm

theorem treeGet_of_mem (m : List (Bytes × Bytes)) (h : Ascending m) (it : Bytes × Bytes)
    (hit : it ∈ m) : treeGet m it.1 = some it.2 := by
  induction m with
  | nil => cases hit
  | cons hd tl ih =>
    unfold Ascending at h ih
    rw [List.pairwise_cons] at h
    rcases List.mem_cons.1 hit with e | hm
    · subst e; simp [treeGet]
    · have hne : it.1 ≠ hd.1 := fun e => bytesCompare_lt_ne _ _ (h.1 it hm) e.symm
      simp only [treeGet, hne, if_false]
      exact ih h.2 hm

theorem treeGet_some_mem (m : List (Bytes × Bytes)) (k b : Bytes)
    (h : treeGet m k = some b) : (k, b) ∈ m := by
  induction m with
  | nil => simp [treeGet] at h
  | cons hd tl ih =>
    obtain ⟨k2, b2⟩ := hd
    simp only [treeGet] at h
    split_ifs at h with hk
    · subst hk; simp at h; simp [h]
    · exact List.mem_cons_of_mem _ (ih h)

theorem validBlob_set (v : Bytes) (hv : v.length < 4294967296) : ValidBlob ([SetOp] ++ v) :=
  Or.inl ⟨v, rfl, hv⟩

theorem validBlob_del : ValidBlob [DelOp] := Or.inr rfl

theorem makeEntry_of_mem (mem : MemTable) (h : MemOK mem.sortedMap) (it : Bytes × Bytes)
    (hit : it ∈ mem.sortedMap) : mem.makeEntry it.1 = .ok (blobEntry it) := by
  have hg := treeGet_of_mem _ h.1 it hit
  have hb := (h.2 it hit).2
  obtain ⟨k, b⟩ := it
  simp only at hg hb
  rcases hb with ⟨v, hv, _⟩ | hd
  · subst hv
    simp [MemTable.makeEntry, hg, parseInMemValue, blobEntry]
  · subst hd
    simp [MemTable.makeEntry, hg, parseInMemValue, blobEntry]

theorem flushEntries_of_subset (mem : MemTable) (h : MemOK mem.sortedMap)
    (its : List (Bytes × Bytes)) (hsub : ∀ it ∈ its, it ∈ mem.sortedMap) :
    flushEntries mem its = (encodeAll (its.map blobEntry), none) := by
  induction its with
  | nil => rfl
  | cons it tl ih =>
    have h1 := makeEntry_of_mem mem h it (hsub it (List.mem_cons_self _ _))
    have h2 := ih (fun x hx => hsub x (List.mem_cons_of_mem _ hx))
    simp [flushEntries, h1, h2, encodeAll]

theorem flushEntries_ok (mem : MemTable) (h : MemOK mem.sortedMap) :
    flushEntries mem mem.sortedMap = (encodeAll (mem.sortedMap.map blobEntry), none) :=
  flushEntries_of_subset mem h mem.sortedMap (fun _ hx => hx)

/-! ## Reading back what a flush wrote -/

theorem decode_encode4BytesInt_mod (n : Nat) :
    decode4BytesInt (encode4BytesInt n) = n % 4294967296 := by
  simp only [encode4BytesInt, decode4BytesInt]
  omega

theorem encode4BytesInt_mod (n : Nat) :
    encode4BytesInt (n % 4294967296) = encode4BytesInt n := by
  simp [encode4BytesInt]

theorem readHeader_headerOf (magic : Byte × Byte × Byte × Byte) (version : Byte) (count : Nat)
    (sk lk rest : Bytes) (hs : sk.length ≤ 1073741824) (hl : lk.length ≤ 1073741824) :
    readHeader (headerOf magic version count sk lk ++ rest)
      = (.ok (magicBytes magic, count % 4294967296, sk, lk, version), rest) := by
  have h12 : headerOf magic version count sk lk ++ rest
      = (magicBytes magic ++ encode4BytesInt count ++ encode4BytesInt sk.length)
        ++ (sk ++ (encode4BytesInt lk.length ++ (lk ++ (version :: rest)))) := by
    simp [headerOf, List.append_assoc]
  have hr := fileRead_append (magicBytes magic ++ encode4BytesInt count ++ encode4BytesInt sk.length)
    (sk ++ (encode4BytesInt lk.length ++ (lk ++ (version :: rest))))
    (by simp [magicBytes, encode4BytesInt_length])
  have hlen : (magicBytes magic ++ encode4BytesInt count ++ encode4BytesInt sk.length).length = 12 := rfl
  rw [hlen] at hr
  have ht1 : (magicBytes magic ++ encode4BytesInt count ++ encode4BytesInt sk.length).take 4
      = magicBytes magic := rfl
  have ht2 : ((magicBytes magic ++ encode4BytesInt count ++ encode4BytesInt sk.length).drop 4).take 4
      = encode4BytesInt count := rfl
  have ht3 : ((magicBytes magic ++ encode4BytesInt count ++ encode4BytesInt sk.length).drop 8).take 4
      = encode4BytesInt sk.length := rfl
  rw [h12]
  unfold readHeader
  rw [hr]
  simp only [ht1, ht2, ht3]
  rw [fileRead_key _ hs _ _ rfl]
  simp only [fileRead_encode4]
  rw [fileRead_key _ hl _ _ rfl]
  simp only [fileRead_one, List.headD_cons, decode_encode4BytesInt_mod]

theorem encodeAll_append (xs ys : List Entry) :
    encodeAll (xs ++ ys) = encodeAll xs ++ encodeAll ys := by
  induction xs with
  | nil => rfl
  | cons x xs ih => simp [encodeAll, ih]

theorem encode_length_pos (e : Entry) : 1 ≤ e.encode.length := by
  unfold Entry.encode
  split_ifs <;> simp

theorem decodeNext_nil : decodeNext [] = (.error Err.eof, []) := rfl

theorem getLast?_mem {α : Type} (m : List α) (l : α) (h : m.getLast? = some l) : l ∈ m := by
  induction m with
  | nil => simp at h
  | cons a tl ih =>
    cases tl with
    | nil => simp at h; simp [h]
    | cons b tl2 =>
      rw [List.getLast?_cons_cons] at h
      exact List.mem_cons_of_mem _ (ih h)

theorem getLast?_of_ne_nil {α : Type} (m : List α) (h : m ≠ []) : ∃ l, m.getLast? = some l := by
  cases hm : m.getLast? with
  | none => exact absurd (List.getLast?_eq_none_iff.1 hm) h
  | some l => exact ⟨l, rfl⟩

theorem firstKey_length (m : List (Bytes × Bytes)) (h : MemOK m) :
    (firstKey m).length < 4294967296 := by
  cases m with
  | nil => simp [firstKey]
  | cons a tl => simpa [firstKey] using (h.2 a (List.mem_cons_self _ _)).1

theorem lastKey_length (m : List (Bytes × Bytes)) (h : MemOK m) :
    (lastKey m).length < 4294967296 := by
  cases hm : m.getLast? with
  | none => simp [lastKey, hm]
  | some l => simpa [lastKey, hm] using (h.2 l (getLast?_mem m l hm)).1

theorem firstKey_le (m : List (Bytes × Bytes)) (h : Ascending m) (x : Bytes × Bytes)
    (hx : x ∈ m) : x.1 = firstKey m ∨ bytesCompare (firstKey m) x.1 = .lt := by
  cases m with
  | nil => cases hx
  | cons a tl =>
    unfold Ascending at h
    rw [List.pairwise_cons] at h
    rcases List.mem_cons.1 hx with e | hm
    · left; simp [firstKey, e]
    · right; simpa [firstKey] using h.1 x hm

theorem get_none_of_lt_first (m : List (Bytes × Bytes)) (h : Ascending m) (key : Bytes)
    (hlt : bytesCompare key (firstKey m) = .lt) : treeGet m key = none := by
  cases hg : treeGet m key with
  | none => rfl
  | some b =>
    exfalso
    rcases firstKey_le m h (key, b) (treeGet_some_mem m key b hg) with e | hc
    · simp only at e
      rw [← e, bytesCompare_self] at hlt
      cases hlt
    · have := bytesCompare_lt_trans _ _ _ hlt hc
      rw [bytesCompare_self] at this
      cases this

/-- The defect of `decodeNext` seen through `searchSSTFile`: when the
first entry of the file is a Set of the key searched whose value is longer
than `2^30` bytes, the search returns the first `2^30` bytes of the value
followed by zeros, with no error. -/
theorem searchSSTFile_short_value (db : lsmDB) (n count : Nat)
    (key smallestKey largestKey xs ys : Bytes) (es : List Entry)
    (hfile : db.sst n = some (headerOf db.magicNumber db.version count smallestKey largestKey
      ++ encodeAll (⟨SetOp, key, xs ++ ys⟩ :: es)))
    (hs : smallestKey.length ≤ 1073741824) (hl : largestKey.length ≤ 1073741824)
    (hk : key.length ≤ 1073741824) (hx : xs.length = 1073741824) (hy : ys ≠ [])
    (hlen : (xs ++ ys).length < 4294967296)
    (hlow : bytesCompare key smallestKey ≠ .lt) (hhigh : bytesCompare key largestKey ≠ .gt) :
    db.searchSSTFile n key = .ok (xs ++ List.replicate ys.length 0) := by
  unfold lsmDB.searchSSTFile
  rw [hfile]
  simp only [readHeader_headerOf _ _ _ _ _ _ hs hl, ne_eq, not_true_eq_false, if_false, hlow,
    hhigh, or_self]
  simp only [searchLoop, encodeAll, decodeNext_short_value key xs ys _ hk hx hy hlen]
  simp

theorem createHeader_eq (db : lsmDB) (h : db.memTable.sortedMap ≠ []) :
    db.createHeader = .ok (headerOf db.magicNumber db.version db.memTable.sortedMap.length
      (firstKey db.memTable.sortedMap) (lastKey db.memTable.sortedMap)) := by
  obtain ⟨l, hl⟩ := getLast?_of_ne_nil _ h
  cases hm : db.memTable.sortedMap with
  | nil => exact absurd hm h
  | cons a tl =>
    rw [hm] at hl
    simp [lsmDB.createHeader, hm, hl, firstKey, lastKey, headerOf]

/-- A flush of a well-formed, non-empty memtable succeeds when the
metadata file exists, and this is the state it leaves. -/
theorem flushToDisk_ok (db : lsmDB) (hm : MemOK db.memTable.sortedMap)
    (hne : db.memTable.sortedMap ≠ []) (c : Bytes) (hmeta : db.metadata = some c) :
    db.flushToDisk = (none, { db with
      sst := writeFile db.sst (db.sstFilesNum + 1)
        (sstImage db.magicNumber db.version db.memTable.sortedMap),
      sstFilesNum := db.sstFilesNum + 1,
      metadata := some (encode4BytesInt (db.sstFilesNum + 1)),
      wal := [] }) := by
  unfold lsmDB.flushToDisk
  simp only [createHeader_eq db hne, flushEntries_ok db.memTable hm, lsmDB.updateMetadataFile,
    hmeta, sstImage]

/-! ## The loops of the model do not run out of fuel -/

theorem fileRead_length_le (n : Nat) (file : Bytes) :
    (fileRead n file).2.2.length ≤ file.length := by
  unfold fileRead
  split_ifs
  · exact le_refl _
  · cases file with
    | nil => simp
    | cons b t => simp

theorem fileRead_one_lt (file buf rest : Bytes) (h : fileRead 1 file = (buf, none, rest)) :
    rest.length < file.length := by
  cases file with
  | nil => simp [fileRead] at h
  | cons b t =>
    simp only [fileRead_one, Prod.mk.injEq] at h
    rw [← h.2.2]
    simp

/-- A successful `decodeNext` moves the read position forward. -/
theorem decodeNext_consumes (file rest : Bytes) (x : Byte × Bytes × Bytes)
    (h : decodeNext file = (.ok x, rest)) : rest.length < file.length := by
  unfold decodeNext at h
  rcases h1 : fileRead 1 file with ⟨b1, e1, f1⟩
  rw [h1] at h
  cases e1 with
  | some e => simp at h
  | none =>
    have l1 := fileRead_one_lt file b1 f1 h1
    simp only at h
    rcases h2 : fileRead 4 f1 with ⟨b2, e2, f2⟩
    have l2 := fileRead_length_le 4 f1
    rw [h2] at h l2
    cases e2 with
    | some e => simp at h
    | none =>
      simp only at h l2
      rcases h3 : fileRead (decode4BytesInt b2) f2 with ⟨b3, e3, f3⟩
      have l3 := fileRead_length_le (decode4BytesInt b2) f2
      rw [h3] at h l3
      cases e3 with
      | some e => simp at h
      | none =>
        simp only at h l3
        split_ifs at h with hop
        · simp only [Prod.mk.injEq] at h
          rw [← h.2]
          omega
        · rcases h4 : fileRead 4 f3 with ⟨b4, e4, f4⟩
          have l4 := fileRead_length_le 4 f3
          rw [h4] at h l4
          cases e4 with
          | some e => simp at h
          | none =>
            simp only at h l4
            rcases h5 : fileRead (decode4BytesInt b4) f4 with ⟨b5, e5, f5⟩
            have l5 := fileRead_length_le (decode4BytesInt b4) f4
            rw [h5] at h l5
            cases e5 with
            | some e => simp at h
            | none =>
              simp only [Prod.mk.injEq] at h l5
              rw [← h.2]
              omega

/-- The only error `decodeNext` reports in the model is `io.EOF`. -/
theorem decodeNext_error (file rest : Bytes) (e : Err)
    (h : decodeNext file = (.error e, rest)) : e = Err.eof := by
  have hr : ∀ (n : Nat) (f buf r : Bytes) (e' : Err),
      fileRead n f = (buf, some e', r) → e' = Err.eof := by
    intro n f buf r e' hf
    unfold fileRead at hf
    split_ifs at hf
    · simp at hf
    · cases f with
      | nil => simp at hf; exact hf.2.1.symm
      | cons b t => simp at hf
  unfold decodeNext at h
  rcases h1 : fileRead 1 file with ⟨b1, e1, f1⟩
  rw [h1] at h
  cases e1 with
  | some e' => simp at h; rw [← h.1]; exact hr _ _ _ _ _ h1
  | none =>
    simp only at h
    rcases h2 : fileRead 4 f1 with ⟨b2, e2, f2⟩
    rw [h2] at h
    cases e2 with
    | some e' => simp at h; rw [← h.1]; exact hr _ _ _ _ _ h2
    | none =>
      simp only at h
      rcases h3 : fileRead (decode4BytesInt b2) f2 with ⟨b3, e3, f3⟩
      rw [h3] at h
      cases e3 with
      | some e' => simp at h; rw [← h.1]; exact hr _ _ _ _ _ h3
      | none =>
        simp only at h
        split_ifs at h with hop
        · simp at h
        · rcases h4 : fileRead 4 f3 with ⟨b4, e4, f4⟩
          rw [h4] at h
          cases e4 with
          | some e' => simp at h; rw [← h.1]; exact hr _ _ _ _ _ h4
          | none =>
            simp only at h
            rcases h5 : fileRead (decode4BytesInt b4) f4 with ⟨b5, e5, f5⟩
            rw [h5] at h
            cases e5 with
            | some e' => simp at h; rw [← h.1]; exact hr _ _ _ _ _ h5
            | none => simp at h

/-- With fuel above the length of the file the scanning loop of
`searchSSTFile` ends by itself: its result is a value, `ErrKeyDeleted` or
`ErrKeyNotFound`, never the out-of-fuel marker. -/
theorem searchLoop_fuel (fuel : Nat) (file key : Bytes) (hf : file.length < fuel) :
    (∃ v, searchLoop fuel file key = .ok v)
      ∨ searchLoop fuel file key = .error Err.keyDeleted
      ∨ searchLoop fuel file key = .error Err.keyNotFound := by
  induction fuel generalizing file with
  | zero => omega
  | succ f ih =>
    unfold searchLoop
    rcases hd : decodeNext file with ⟨r, rest⟩
    cases r with
    | error e =>
      have he := decodeNext_error file rest e hd
      subst he
      right; right
      simp
    | ok x =>
      obtain ⟨op, k, v⟩ := x
      have hlt := decodeNext_consumes file rest _ hd
      simp only
      split_ifs with hk hop
      · right; left; rfl
      · left; exact ⟨v, rfl⟩
      · exact ih rest (by omega)

/-- With fuel above the length of the WAL the loop of `loadWALtoMemTable`
ends by itself and returns nil. -/
theorem loadLoop_fuel (fuel : Nat) (file : Bytes) (mem : MemTable) (hf : file.length < fuel) :
    (loadLoop fuel file mem).1 = none := by
  induction fuel generalizing file mem with
  | zero => omega
  | succ f ih =>
    unfold loadLoop
    rcases hd : decodeNext file with ⟨r, rest⟩
    cases r with
    | error e =>
      have he := decodeNext_error file rest e hd
      subst he
      simp
    | ok x =>
      obtain ⟨op, k, v⟩ := x
      have hlt := decodeNext_consumes file rest _ hd
      simp only
      exact ih rest _ (by omega)

/-! ## The invariant of the reachable states -/

theorem writeOperation_valid (mem : MemTable) (e : Entry) (he : ValidEntry e)
    (h : MemOK mem.sortedMap) : MemOK (mem.writeOperation e.op e.key e.value).sortedMap := by
  obtain ⟨op, key, value⟩ := e
  obtain ⟨hop, hk, hv⟩ := he
  simp only at hop hk hv
  rcases hop with h1 | ⟨h1, _⟩
  · subst h1
    simpa [MemTable.writeOperation] using memOK_treeSet _ key _ h hk (validBlob_set value hv)
  · subst h1
    simpa [MemTable.writeOperation] using memOK_treeSet _ key _ h hk validBlob_del

theorem replay_memOK (es : List Entry) (hes : ∀ e ∈ es, ValidEntry e) (mem : MemTable)
    (h : MemOK mem.sortedMap) : MemOK (replay es mem).sortedMap := by
  induction es generalizing mem with
  | nil => exact h
  | cons e es ih =>
    simp only [replay, List.foldl_cons]
    exact ih (fun x hx => hes x (List.mem_cons_of_mem _ hx)) _
      (writeOperation_valid mem e (hes e (List.mem_cons_self _ _)) h)

theorem replay_snoc (es : List Entry) (e : Entry) (mem : MemTable) :
    replay (es ++ [e]) mem = (replay es mem).writeOperation e.op e.key e.value := by
  simp [replay, List.foldl_append]

theorem inv_memOK (db : lsmDB) (h : Inv db) : MemOK db.memTable.sortedMap := by
  obtain ⟨⟨es, hes, _, hmem⟩, _, _⟩ := h
  rw [hmem]
  exact replay_memOK es hes newMemTable memOK_nil

theorem open_newDB (magic : Byte × Byte × Byte × Byte) (version : Byte) (threshold : Int) :
    (newDB magic version threshold).Open
      = (none, { newDB magic version threshold with metadata := some [0, 0, 0, 0] }) := by
  simp [lsmDB.Open, newDB, lsmDB.updateMetadataFile, lsmDB.setCurrentSSTIndex,
    lsmDB.loadWALtoMemTable, loadLoop, decodeNext_nil, encode4BytesInt, decode4BytesInt]

theorem inv_opened (magic : Byte × Byte × Byte × Byte) (version : Byte) (threshold : Int) :
    Inv (newDB magic version threshold).Open.2 := by
  rw [open_newDB]
  refine ⟨⟨[], by simp, rfl, rfl⟩, by simp [newDB, encode4BytesInt], ?_⟩
  intro i h1 h2
  simp only [newDB] at h2
  omega

/-- `Get` changes nothing but the in-memory counter, which it reloads from
the metadata file when it searches the SST files. -/
theorem get_state (db : lsmDB) (key : Bytes) :
    (db.Get key).2 = db ∨ ∃ c, db.metadata = some c ∧ c.length = 4
      ∧ (db.Get key).2 = { db with sstFilesNum := decode4BytesInt c } := by
  unfold lsmDB.Get
  cases hg : db.memTable.Get key with
  | ok v => left; rfl
  | error e =>
    simp only
    split_ifs with hp he
    · left; rfl
    · left; rfl
    · unfold lsmDB.searchAllSSTFiles lsmDB.setCurrentSSTIndex
      cases hm : db.metadata with
      | none => left; rfl
      | some c =>
        simp only
        split_ifs with hl
        · left; rfl
        · right
          exact ⟨c, rfl, by simpa using hl, rfl⟩

theorem inv_get (db : lsmDB) (key : Bytes) (h : Inv db) : Inv (db.Get key).2 := by
  rcases get_state db key with e | ⟨c, hc, _, e⟩
  · rw [e]; exact h
  · rw [e]
    obtain ⟨hwal, hmeta, hfiles⟩ := h
    rw [hmeta] at hc
    have hc' : c = encode4BytesInt db.sstFilesNum := by injection hc with hc; exact hc.symm
    subst hc'
    refine ⟨hwal, ?_, ?_⟩
    · simp only [decode_encode4BytesInt_mod, encode4BytesInt_mod]
      exact hmeta
    · intro i h1 h2
      simp only [decode_encode4BytesInt_mod] at h2
      have : db.sstFilesNum % 4294967296 ≤ db.sstFilesNum := Nat.mod_le _ _
      exact hfiles i h1 (by omega)

/-- What a `Set` does in a state that satisfies the invariant: it
succeeds, and either flushes or only logs and buffers the write. -/
theorem set_eq (db : lsmDB) (key value : Bytes) (h : Inv db)
    (hk : key.length < 4294967296) (hv : value.length < 4294967296) :
    db.Set key value =
      if db.memSizeThreshold ≤ ((db.memTable.Set key value).sizeInBytes : Int) then
        (none, { db with
          wal := [], memTable := ⟨[]⟩,
          sst := writeFile db.sst (db.sstFilesNum + 1)
            (sstImage db.magicNumber db.version (db.memTable.Set key value).sortedMap),
          sstFilesNum := db.sstFilesNum + 1,
          metadata := some (encode4BytesInt (db.sstFilesNum + 1)) })
      else
        (none, { db with
          wal := db.wal ++ (Entry.mk SetOp key value).encode,
          memTable := db.memTable.Set key value }) := by
  have hm2 : MemOK (db.memTable.Set key value).sortedMap :=
    memOK_treeSet _ key _ (inv_memOK db h) hk (validBlob_set value hv)
  have hne : (db.memTable.Set key value).sortedMap ≠ [] := treeSet_ne_nil _ _ _
  unfold lsmDB.Set
  simp only [lsmDB.appendEntry]
  split_ifs with hth
  · rw [flushToDisk_ok { db with
      wal := db.wal ++ (Entry.mk SetOp key value).encode,
      memTable := db.memTable.Set key value } hm2 hne _ h.2.1]
  · rfl

theorem inv_set (db : lsmDB) (key value : Bytes) (h : Inv db)
    (hk : key.length < 4294967296) (hv : value.length < 4294967296) :
    Inv (db.Set key value).2 := by
  have hm2 : MemOK (db.memTable.Set key value).sortedMap :=
    memOK_treeSet _ key _ (inv_memOK db h) hk (validBlob_set value hv)
  rw [set_eq db key value h hk hv]
  obtain ⟨⟨es, hes, hwal, hmem⟩, hmeta, hfiles⟩ := h
  split_ifs with hth
  · refine ⟨⟨[], by simp, rfl, rfl⟩, rfl, ?_⟩
    intro i h1 h2
    simp only at h2 ⊢
    by_cases hi : i = db.sstFilesNum + 1
    · exact ⟨_, hm2, by simp [writeFile, hi]⟩
    · obtain ⟨m, hm, hf⟩ := hfiles i h1 (by omega)
      exact ⟨m, hm, by simp [writeFile, hi, hf]⟩
  · refine ⟨⟨es ++ [⟨SetOp, key, value⟩], ?_, ?_, ?_⟩, hmeta, hfiles⟩
    · intro e he
      rcases List.mem_append.1 he with he | he
      · exact hes e he
      · simp only [List.mem_singleton] at he
        subst he
        exact ⟨Or.inl rfl, hk, hv⟩
    · simp [encodeAll_append, encodeAll, hwal]
    · rw [replay_snoc, ← hmem]
      rfl

theorem inv_del (db : lsmDB) (key : Bytes) (h : Inv db) (hk : key.length < 4294967296) :
    Inv (db.Del key).2 := by
  have hg := inv_get db key h
  unfold lsmDB.Del
  cases hres : db.Get key with
  | mk r db1 =>
    rw [hres] at hg
    simp only at hg
    cases r with
    | error e => exact hg
    | ok v =>
      obtain ⟨⟨es, hes, hwal, hmem⟩, hmeta, hfiles⟩ := hg
      refine ⟨⟨es ++ [⟨DelOp, key, []⟩], ?_, ?_, ?_⟩, hmeta, hfiles⟩
      · intro e he
        rcases List.mem_append.1 he with he | he
        · exact hes e he
        · simp only [List.mem_singleton] at he
          subst he
          exact ⟨Or.inr ⟨rfl, rfl⟩, hk, by simp⟩
      · simp [lsmDB.appendEntry, encodeAll_append, encodeAll, hwal]
      · simp only [lsmDB.appendEntry]
        rw [replay_snoc, ← hmem]
        rfl

theorem reachable_inv (db : lsmDB) (h : Reachable db) : Inv db := by
  induction h with
  | opened magic version threshold => exact inv_opened magic version threshold
  | set db key value _ hk hv _ ih => exact inv_set db key value ih hk hv
  | del db key v _ hk _ ih => exact inv_del db key ih hk

/-! ## The invariant of the states reachable by calls within the read size -/

/-- C3: in every engine state (reachable or not) in which `Get(k)` returns
`(v, nil)`, whether `v` is held by the memtable or only by an SST file,
`Del(k)` returns `(v, nil)` and the `Get(k)` that follows returns
`ErrKeyNotFound`. -/
theorem del_returns_prior (db : lsmDB) (key v : Bytes) (h : (db.Get key).1 = .ok v) :
    (db.Del key).1 = .ok v ∧ ((db.Del key).2.Get key).1 = .error Err.keyNotFound := by
  unfold lsmDB.Del
  cases hres : db.Get key with
  | mk r db1 =>
    rw [hres] at h
    simp only at h
    subst h
    refine ⟨rfl, ?_⟩
    simp only [lsmDB.appendEntry, lsmDB.Get, get_del_same]
    rfl

/-- C3 at a reachable state whose memtable is empty and whose value is held by `f1.sst` only. -/
theorem del_returns_prior_witness :
    Reachable sampleFlushed ∧ sampleFlushed.memTable.Get [107] = .error Err.keyNotFound
      ∧ (sampleFlushed.Del [107]).1 = .ok [118]
      ∧ ((sampleFlushed.Del [107]).2.Get [107]).1 = .error Err.keyNotFound :=
  ⟨Reachable.set _ [107] [118] (Reachable.opened _ _ _) (by decide) (by decide) (by decide),
    by decide, del_returns_prior sampleFlushed [107] [118] (by decide)⟩

/-- C4: in every engine state in which `Get(k)` returns `ErrKeyNotFound`,
`Del(k)` returns `(nil, ErrKeyNotFound)` and leaves the WAL bytes, the
memtable, the SST files and the metadata file as they were; in a
reachable state with a counter below 2^32 the whole engine state,
in-memory counter included, is unchanged. -/
theorem del_missing_writes_nothing (db : lsmDB) (key : Bytes)
    (h : (db.Get key).1 = .error Err.keyNotFound) :
    (db.Del key).1 = .error Err.keyNotFound
      ∧ (db.Del key).2.wal = db.wal
      ∧ (db.Del key).2.memTable = db.memTable
      ∧ (db.Del key).2.sst = db.sst
      ∧ (db.Del key).2.metadata = db.metadata
      ∧ (Reachable db → db.sstFilesNum < 4294967296 → (db.Del key).2 = db) := by
  have hdel : db.Del key = (.error Err.keyNotFound, (db.Get key).2) := by
    unfold lsmDB.Del
    cases hres : db.Get key with
    | mk r db1 =>
      rw [hres] at h
      simp only at h
      subst h
      rfl
  rw [hdel]
  refine ⟨rfl, ?_⟩
  rcases get_state db key with e | ⟨c, hc, _, e⟩
  · rw [e]
    exact ⟨rfl, rfl, rfl, rfl, fun _ _ => rfl⟩
  · rw [e]
    refine ⟨rfl, rfl, rfl, rfl, ?_⟩
    intro hr hb
    have hmeta := (reachable_inv db hr).2.1
    rw [hmeta] at hc
    have hc' : c = encode4BytesInt db.sstFilesNum := by injection hc with hc; exact hc.symm
    subst hc'
    simp only [decode_encode4BytesInt db.sstFilesNum hb]

/-- C4 at a reachable state and a key that was never written. -/
theorem del_missing_writes_nothing_witness :
    (sampleFlushed.Del [108]).1 = .error Err.keyNotFound
      ∧ (sampleFlushed.Del [108]).2.wal = sampleFlushed.wal
      ∧ (sampleFlushed.Del [108]).2.memTable = sampleFlushed.memTable
      ∧ (sampleFlushed.Del [108]).2.sst = sampleFlushed.sst
      ∧ (sampleFlushed.Del [108]).2.metadata = sampleFlushed.metadata
      ∧ (Reachable sampleFlushed → sampleFlushed.sstFilesNum < 4294967296 →
          (sampleFlushed.Del [108]).2 = sampleFlushed) :=
  del_missing_writes_nothing sampleFlushed [108] (by decide)

/-! ## The flush trigger (C10) -/

theorem flushToDisk_success (db : lsmDB) (h : db.flushToDisk.1 = none) :
    db.flushToDisk.2.sstFilesNum = db.sstFilesNum + 1
      ∧ db.flushToDisk.2.memTable = db.memTable
      ∧ db.flushToDisk.2.memSizeThreshold = db.memSizeThreshold
      ∧ (∃ file, db.flushToDisk.2.sst (db.sstFilesNum + 1) = some file)
      ∧ (∀ i, i ≠ db.sstFilesNum + 1 → db.flushToDisk.2.sst i = db.sst i)
      ∧ db.flushToDisk.2.wal = [] := by
  unfold lsmDB.flushToDisk at h ⊢
  cases hh : db.createHeader with
  | error e => simp [hh] at h
  | ok header =>
    simp only [hh] at h ⊢
    cases hw : (flushEntries db.memTable db.memTable.sortedMap).2 with
    | some e => simp [hw] at h
    | none =>
      simp only [hw, lsmDB.updateMetadataFile] at h ⊢
      cases hm : db.metadata with
      | none => simp [hm] at h
      | some c =>
        simp only [hm, writeFile]
        refine ⟨by simp, by simp, by simp, by simp, ?_, by simp⟩
        intro i hi
        simp [hi]

theorem set_unfold (db : lsmDB) (key value : Bytes) :
    db.Set key value =
      if db.memSizeThreshold ≤ ((db.memTable.Set key value).sizeInBytes : Int) then
        if (db.buffered key value).flushToDisk.1 = none then
          (none, { (db.buffered key value).flushToDisk.2 with memTable := ⟨[]⟩ })
        else (db.buffered key value).flushToDisk
      else (none, db.buffered key value) := by
  unfold lsmDB.Set
  simp only [lsmDB.appendEntry, lsmDB.buffered]
  split_ifs with hth hf
  · revert hf
    generalize lsmDB.flushToDisk _ = res
    intro hf
    obtain ⟨r, db3⟩ := res
    simp only at hf
    subst hf
    rfl
  · revert hf
    generalize lsmDB.flushToDisk _ = res
    intro hf
    obtain ⟨r, db3⟩ := res
    cases r with
    | none => exact absurd rfl hf
    | some e => rfl
  · rfl

/-- C10: `lsmDB.Set(k, v)` flushes exactly when `sizeInBytes()`, measured
after `k` has been inserted, is at least `memSizeThreshold`.  After a
successful Set either the size reached the threshold, the flush ran on
the engine with the write logged and buffered, the memtable is empty, the
counter grew by one and `f<K+1>.sst` was written; or the size is below
the threshold, the engine only logged and buffered the write, and the
counter and the SST files are unchanged. -/
theorem set_flush_trigger (db : lsmDB) (key value : Bytes) (h : (db.Set key value).1 = none) :
    (db.memSizeThreshold ≤ ((db.memTable.Set key value).sizeInBytes : Int)
        ∧ (db.Set key value).2
            = { (db.buffered key value).flushToDisk.2 with memTable := ⟨[]⟩ }
        ∧ (db.buffered key value).flushToDisk.1 = none
        ∧ (db.Set key value).2.memTable.sortedMap = []
        ∧ (db.Set key value).2.sstFilesNum = db.sstFilesNum + 1
        ∧ (∃ file, (db.Set key value).2.sst (db.sstFilesNum + 1) = some file)
        ∧ ∀ i, i ≠ db.sstFilesNum + 1 → (db.Set key value).2.sst i = db.sst i)
      ∨ (((db.memTable.Set key value).sizeInBytes : Int) < db.memSizeThreshold
        ∧ (db.Set key value).2 = db.buffered key value
        ∧ ((db.Set key value).2.memTable.sizeInBytes : Int) < db.memSizeThreshold
        ∧ (db.Set key value).2.sstFilesNum = db.sstFilesNum
        ∧ (db.Set key value).2.sst = db.sst) := by
  rw [set_unfold] at h ⊢
  split_ifs at h ⊢ with hth hf
  · left
    have hs := flushToDisk_success _ hf
    exact ⟨hth, rfl, hf, rfl, hs.1, hs.2.2.2.1, hs.2.2.2.2.1⟩
  · exact absurd h hf
  · right
    exact ⟨not_le.1 hth, rfl, not_le.1 hth, rfl, rfl⟩

/-- C10 at `Set("key1", "value1")` on an opened empty engine with threshold 100: no flush. -/
theorem set_flush_trigger_witness :
    (sampleDB.Set [107, 101, 121, 49] [118, 97, 108, 117, 101, 49]).1 = none
      ∧ ((sampleDB.Set [107, 101, 121, 49] [118, 97, 108, 117, 101, 49]).2.memTable.sizeInBytes : Int)
          < sampleDB.memSizeThreshold
      ∧ (sampleDB.Set [107, 101, 121, 49] [118, 97, 108, 117, 101, 49]).2.sstFilesNum
          = sampleDB.sstFilesNum := by
  have hw := set_flush_trigger sampleDB [107, 101, 121, 49] [118, 97, 108, 117, 101, 49]
    (by decide)
  refine ⟨by decide, ?_⟩
  rcases hw with hflush | hkeep
  · exact absurd hflush.1 (by decide)
  · exact ⟨hkeep.2.2.1, hkeep.2.2.2.1⟩

/-! ## Restart (C5) -/

theorem decodeNext_single (y : Byte) : decodeNext [y] = (.error Err.eof, []) := by
  unfold decodeNext
  rw [fileRead_one]
  rfl

/-- Replaying a WAL that holds one Set entry whose value is one byte
longer than `2^30` bytes: the loop stores the value with its last byte
zero, decodes the byte that was left as the op of a further entry, meets
the end of the file and returns nil. -/
theorem loadLoop_short_value (key xs : Bytes) (y : Byte) (mem : MemTable) (fuel : Nat)
    (hk : key.length ≤ 1073741824) (hx : xs.length = 1073741824) :
    loadLoop (fuel + 2) (Entry.mk SetOp key (xs ++ [y])).encode mem
      = (none, mem.writeOperation SetOp key (xs ++ [0])) := by
  have h := decodeNext_short_value key xs [y] [] hk hx (by simp) (by simp [hx])
  rw [List.append_nil] at h
  simp only [loadLoop, h, List.append_nil, decodeNext_single]
  rfl

theorem loadWAL_short_value (db : lsmDB) (key xs : Bytes) (y : Byte)
    (hwal : db.wal = (Entry.mk SetOp key (xs ++ [y])).encode)
    (hk : key.length ≤ 1073741824) (hx : xs.length = 1073741824) :
    db.loadWALtoMemTable
      = (none, { db with memTable := db.memTable.writeOperation SetOp key (xs ++ [0]) }) := by
  obtain ⟨f, hf⟩ : ∃ f, db.wal.length + 1 = f + 2 :=
    ⟨db.wal.length - 1, by have := encode_length_pos (Entry.mk SetOp key (xs ++ [y])); rw [hwal]; omega⟩
  unfold lsmDB.loadWALtoMemTable
  rw [hf, hwal, loadLoop_short_value key xs y db.memTable f hk hx]

theorem sampleDB_eq :
    sampleDB = { newDB (76, 83, 77, 68) 1 100 with metadata := some [0, 0, 0, 0] } := by
  unfold sampleDB
  rw [open_newDB]

theorem roomyDB_eq :
    roomyDB = { newDB (76, 83, 77, 68) 1 4294967296 with metadata := some [0, 0, 0, 0] } := by
  unfold roomyDB
  rw [open_newDB]

theorem roomy_short_value (xs : Bytes) (y : Byte) (hx : xs.length = 1073741824) :
    (roomyDB.Set [107] (xs ++ [y])).1 = none
      ∧ ((roomyDB.Set [107] (xs ++ [y])).2.Get [107]).1 = .ok (xs ++ [y])
      ∧ (restartDB (roomyDB.Set [107] (xs ++ [y])).2 4294967296 0).Open.1 = none
      ∧ ((restartDB (roomyDB.Set [107] (xs ++ [y])).2 4294967296 0).Open.2.Get [107]).1
          = .ok (xs ++ [0]) := by
  have hlen : (xs ++ [y]).length < 4294967296 := by simp [hx]
  have hset := set_eq roomyDB [107] (xs ++ [y]) (inv_opened _ _ _) (by decide) hlen
  have hsize : ¬ roomyDB.memSizeThreshold
      ≤ ((roomyDB.memTable.Set [107] (xs ++ [y])).sizeInBytes : Int) := by
    have h1 : (roomyDB.memTable.Set [107] (xs ++ [y])).sizeInBytes = 1073741827 := by
      rw [roomyDB_eq]
      simp [MemTable.sizeInBytes, newDB, newMemTable, MemTable.Set, treeSet, hx]
    have h2 : roomyDB.memSizeThreshold = 4294967296 := by
      rw [roomyDB_eq]; rfl
    rw [h1, h2]
    decide
  have hload : ∀ d : lsmDB, d.wal = (Entry.mk SetOp [107] (xs ++ [y])).encode →
      d.loadWALtoMemTable
        = (none, { d with memTable := d.memTable.writeOperation SetOp [107] (xs ++ [0]) }) :=
    fun d hd => loadWAL_short_value d [107] xs y hd (by decide) hx
  rw [if_neg hsize] at hset
  rw [hset]
  refine ⟨rfl, ?_, ?_, ?_⟩
  · simp only [lsmDB.Get, get_set_same]
  · rw [roomyDB_eq]
    simp only [lsmDB.Open, restartDB, newDB, lsmDB.setCurrentSSTIndex, List.nil_append]
    rw [if_neg (by decide)]
    simp only
    rw [hload _ rfl]
  · rw [roomyDB_eq]
    simp only [lsmDB.Open, restartDB, newDB, lsmDB.setCurrentSSTIndex, List.nil_append]
    rw [if_neg (by decide)]
    simp only
    rw [hload _ rfl]
    simp [lsmDB.Get, MemTable.writeOperation, newMemTable, treeSet, MemTable.Get, treeGet,
      parseInMemValue]

/-- C5 fails on the code: on an opened empty engine with threshold 2^32,
`Set("k", v)` with a value `v` of `2^30 + 1` bytes `0x01` succeeds
without a flush and `Get("k")` returns `v`; a new engine over the same
files opens without error, but its `Get("k")` returns `cutBytes`, the
value with its last byte zero: the replay of the WAL reads the value with
one `file.Read`, which transfers `2^30` bytes, and drops the byte
count. -/
theorem restart_value_cut :
    (roomyDB.Set [107] longBytes).1 = none
      ∧ ((roomyDB.Set [107] longBytes).2.Get [107]).1 = .ok longBytes
      ∧ (restartDB (roomyDB.Set [107] longBytes).2 4294967296 0).Open.1 = none
      ∧ ((restartDB (roomyDB.Set [107] longBytes).2 4294967296 0).Open.2.Get [107]).1
          = .ok cutBytes
      ∧ cutBytes ≠ longBytes :=
  ⟨(roomy_short_value (List.replicate 1073741824 1) 1 (List.length_replicate _ _)).1,
    (roomy_short_value (List.replicate 1073741824 1) 1 (List.length_replicate _ _)).2.1,
    (roomy_short_value (List.replicate 1073741824 1) 1 (List.length_replicate _ _)).2.2.1,
    (roomy_short_value (List.replicate 1073741824 1) 1 (List.length_replicate _ _)).2.2.2,
    cutBytes_ne⟩

/-! ## Read-your-writes (C1) -/

theorem floodDB_reachable (n : Nat) : Reachable (floodDB n) := by
  induction n with
  | zero => exact Reachable.opened _ _ _
  | succ n ih =>
    have h := set_eq (floodDB n) [107] [118] (reachable_inv _ ih) (by decide) (by decide)
    refine Reachable.set _ _ _ ih (by decide) (by decide) ?_
    rw [h]
    split_ifs <;> rfl

theorem floodDB_state (n : Nat) :
    (floodDB n).memTable = ⟨[]⟩ ∧ (floodDB n).memSizeThreshold = 0
      ∧ (floodDB n).sstFilesNum = n ∧ (floodDB n).magicNumber = (76, 83, 77, 68)
      ∧ (floodDB n).version = 1 := by
  induction n with
  | zero => exact ⟨rfl, rfl, rfl, rfl, rfl⟩
  | succ n ih =>
    obtain ⟨h1, h2, h3, h4, h5⟩ := ih
    have h := set_eq (floodDB n) [107] [118] (reachable_inv _ (floodDB_reachable n))
      (by decide) (by decide)
    have hth : (floodDB n).memSizeThreshold
        ≤ (((floodDB n).memTable.Set [107] [118]).sizeInBytes : Int) := by
      rw [h2]; exact Int.ofNat_nonneg _
    rw [if_pos hth] at h
    rw [show floodDB (n + 1) = ((floodDB n).Set [107] [118]).2 from rfl, h]
    exact ⟨rfl, h2, by simp [h3], h4, h5⟩

theorem runCalls_snoc (cs : List MemCall) (c : MemCall) :
    runCalls (cs ++ [c]) = c.run (runCalls cs) := by
  simp [runCalls, List.foldl_append]

theorem runCalls_memOK (calls : List MemCall) (hb : ∀ c ∈ calls, c.Bounded) :
    MemOK (runCalls calls).sortedMap := by
  induction calls using List.reverseRecOn with
  | nil => exact memOK_nil
  | append_singleton cs c ih =>
    rw [runCalls_snoc]
    have ih' := ih (fun x hx => hb x (List.mem_append_left _ hx))
    have hc := hb c (List.mem_append_right _ (List.mem_singleton_self c))
    cases c with
    | set k v => exact memOK_treeSet _ k _ ih' hc.1 (validBlob_set v hc.2)
    | del k => exact memOK_treeSet _ k _ ih' hc validBlob_del

/-- The SST file is written before the metadata file is touched: a flush
of a well-formed, non-empty memtable leaves this file whether or not the
metadata file can be stored afterwards. -/
theorem flushToDisk_file (db : lsmDB) (hm : MemOK db.memTable.sortedMap)
    (hne : db.memTable.sortedMap ≠ []) :
    db.flushToDisk.2.sst (db.sstFilesNum + 1)
      = some (sstImage db.magicNumber db.version db.memTable.sortedMap) := by
  unfold lsmDB.flushToDisk
  simp only [createHeader_eq db hne, flushEntries_ok db.memTable hm, lsmDB.updateMetadataFile,
    sstImage]
  cases db.metadata <;> simp [writeFile]

theorem blobEntry_key (it : Bytes × Bytes) (hb : ValidBlob it.2) : (blobEntry it).key = it.1 := by
  obtain ⟨k, b⟩ := it
  rcases hb with ⟨v, hv, _⟩ | hd
  · simp only at hv; subst hv; simp [blobEntry]
  · simp only at hd; subst hd; simp [blobEntry]

theorem blobEntry_keys (m : List (Bytes × Bytes)) (h : ∀ it ∈ m, ValidBlob it.2) :
    (m.map blobEntry).map Entry.key = m.map Prod.fst := by
  rw [List.map_map]
  exact List.map_congr_left (fun it hit => blobEntry_key it (h it hit))

theorem blobEntry_get (m : List (Bytes × Bytes)) (hm : MemOK m) (it : Bytes × Bytes)
    (hit : it ∈ m) :
    ((blobEntry it).op = SetOp ∧ (MemTable.mk m).Get (blobEntry it).key = .ok (blobEntry it).value)
      ∨ ((blobEntry it).op = DelOp ∧ (blobEntry it).value = []
        ∧ (MemTable.mk m).Get (blobEntry it).key = .error Err.keyDeleted) := by
  have hg := treeGet_of_mem m hm.1 it hit
  have hb := (hm.2 it hit).2
  obtain ⟨k, b⟩ := it
  simp only at hg hb
  rcases hb with ⟨v, hv, _⟩ | hd
  · subst hv
    left
    simp [blobEntry, MemTable.Get, hg, parseInMemValue]
  · subst hd
    right
    simp [blobEntry, MemTable.Get, hg, parseInMemValue]

theorem bytesCompare_encode4 (i j : Nat) (hij : i < j) (hj : j < 4294967296) :
    bytesCompare (encode4BytesInt j) (encode4BytesInt i) = .gt := by
  simp only [encode4BytesInt, bytesCompare]
  split_ifs <;> first | rfl | omega

theorem treeSet_append (m : List (Bytes × Bytes)) (k b : Bytes)
    (h : ∀ x ∈ m, bytesCompare k x.1 = .gt) : treeSet m k b = m ++ [(k, b)] := by
  induction m with
  | nil => rfl
  | cons a tl ih =>
    obtain ⟨k2, b2⟩ := a
    have h1 : bytesCompare k k2 = .gt := h (k2, b2) (List.mem_cons_self _ _)
    simp only [treeSet, h1, List.cons_append]
    rw [ih (fun x hx => h x (List.mem_cons_of_mem _ hx))]

theorem manySets_map (n : Nat) (hn : n ≤ 4294967296) :
    (runCalls (manySets n)).sortedMap = (List.range n).map (fun i => (encode4BytesInt i, [1])) := by
  induction n with
  | zero => rfl
  | succ n ih =>
    have ih' := ih (by omega)
    simp only [manySets, List.range_succ, List.map_append, List.map_cons, List.map_nil] at ih' ⊢
    rw [runCalls_snoc]
    simp only [MemCall.run, MemTable.Set, ih']
    apply treeSet_append
    intro x hx
    obtain ⟨i, hi, rfl⟩ := List.mem_map.1 hx
    exact bytesCompare_encode4 i n (List.mem_range.1 hi) (by omega)

theorem isBE32_lt (bs : Bytes) (n : Nat) (h : IsBE32 bs n) : n < 4294967296 := by
  obtain ⟨hlen, hbytes, hval⟩ := h
  match bs, hlen with
  | [a, b, c, d], _ =>
    have ha := hbytes a (by simp)
    have hb := hbytes b (by simp)
    have hc := hbytes c (by simp)
    have hd := hbytes d (by simp)
    simp only [bigEndianValue, List.foldl] at hval
    omega

theorem crowded_overflow (N : Nat) (hN : N = 4294967296) :
    (crowdedDB N).memTable = runCalls (manySets N)
      ∧ (∀ c ∈ manySets N, c.Bounded)
      ∧ (crowdedDB N).memTable.sortedMap.length = 4294967296
      ∧ (crowdedDB N).flushToDisk.1 = none
      ∧ ¬ FlushArtifact (crowdedDB N) (crowdedDB N).flushToDisk.2 := by
  have hb : ∀ c ∈ manySets N, c.Bounded := by
    intro c hc
    obtain ⟨i, _, rfl⟩ := List.mem_map.1 hc
    exact ⟨by simp [encode4BytesInt_length], by simp⟩
  have hlen : (crowdedDB N).memTable.sortedMap.length = 4294967296 := by
    simp only [crowdedDB]
    rw [manySets_map N (by omega)]
    simp [hN]
  have hm : MemOK (crowdedDB N).memTable.sortedMap := runCalls_memOK _ hb
  have hne : (crowdedDB N).memTable.sortedMap ≠ [] := by
    intro h
    rw [h] at hlen
    simp at hlen
  refine ⟨rfl, hb, hlen, ?_, ?_⟩
  · rw [flushToDisk_ok (crowdedDB N) hm hne [0, 0, 0, 0] rfl]
  · rintro ⟨entries, count, _, _, _, _, _, hcount, _, _, _, _, _, hkeys, _⟩
    have h1 := isBE32_lt count entries.length hcount
    have h2 : entries.length = (crowdedDB N).memTable.sortedMap.length := by
      rw [← List.length_map entries Entry.key, hkeys, List.length_map]
    omega

/-- C9 fails as stated: the memtable that 2^32 Sets with distinct 4-byte
keys (and empty values) build holds 2^32 entries; `flushToDisk` succeeds
on it, but the header it writes stores the entry count as
`uint32(2^32) = 0`, and no 4-byte field can equal the number of entries
written. -/
theorem flush_artifact_counterexample :
    (crowdedDB 4294967296).memTable = runCalls (manySets 4294967296)
      ∧ (∀ c ∈ manySets 4294967296, c.Bounded)
      ∧ (crowdedDB 4294967296).memTable.sortedMap.length = 4294967296
      ∧ (crowdedDB 4294967296).flushToDisk.1 = none
      ∧ ¬ FlushArtifact (crowdedDB 4294967296) (crowdedDB 4294967296).flushToDisk.2 :=
  crowded_overflow 4294967296 rfl

/-! ## Lookup in one SST file (C12, C13, C14) -/

/-- C12: for every SST file whose header reads without error with the
magic number and the version of the engine, and every key `k` with
`k < smallestKey` or `k > largestKey` (bytewise order on the values the
header holds), `searchSSTFile(n, k)` returns `ErrKeyNotFound`, whatever
bytes follow the header: they are not decoded. -/
theorem range_prune (db : lsmDB) (n : Nat) (key file rest : Bytes) (count : Nat)
    (smallestKey largestKey : Bytes)
    (hfile : db.sst n = some file)
    (hheader : readHeader file
      = (.ok (magicBytes db.magicNumber, count, smallestKey, largestKey, db.version), rest))
    (hout : bytesCompare key smallestKey = .lt ∨ bytesCompare key largestKey = .gt) :
    db.searchSSTFile n key = .error Err.keyNotFound := by
  unfold lsmDB.searchSSTFile
  simp only [hfile, hheader, ne_eq, not_true_eq_false, if_false, hout, if_true]

/-- C12 at a file whose header holds the range `"b"` .. `"c"` and whose
entry bytes are malformed and contain the key `"a"`. -/
theorem range_prune_witness :
    (withFile sampleDB 1
        (headerOf (76, 83, 77, 68) 1 1 [98] [99] ++ [1, 0, 0, 0, 1, 97, 255])).searchSSTFile
      1 [97] = .error Err.keyNotFound :=
  range_prune _ 1 [97] (headerOf (76, 83, 77, 68) 1 1 [98] [99] ++ [1, 0, 0, 0, 1, 97, 255])
    [1, 0, 0, 0, 1, 97, 255] 1 [98] [99] rfl rfl (Or.inl (by decide))

theorem scan_short_value (xs : Bytes) (y : Byte) (hx : xs.length = 1073741824) :
    (withFile sampleDB 1
        (headerOf (76, 83, 77, 68) 1 1 [107] [107]
          ++ encodeAll [⟨SetOp, [107], xs ++ [y]⟩])).searchSSTFile 1 [107] = .ok (xs ++ [0])
      ∧ scanOutcome [⟨SetOp, [107], xs ++ [y]⟩] [107] = .ok (xs ++ [y]) := by
  refine ⟨?_, by simp [scanOutcome, List.find?]⟩
  exact searchSSTFile_short_value _ 1 1 [107] [107] [107] xs [y] []
    (by simp [withFile, writeFile, sampleDB_eq, newDB])
    (by decide) (by decide) (by decide) hx (by simp) (by simp [hx]) (by decide) (by decide)

/-- C13 fails on the code: the file holds a header with the magic number
and version of the engine and the range `"k"` .. `"k"`, followed by the
encoding of `Set("k", v)` with a value `v` of `2^30 + 1` bytes `0x01`.
The first (and only) entry whose key is `"k"` is a Set with value `v`,
but `searchSSTFile` returns `cutBytes`, the value with its last byte
zero, and no error. -/
theorem single_sst_scan_value_cut :
    (withFile sampleDB 1
        (headerOf (76, 83, 77, 68) 1 1 [107] [107]
          ++ encodeAll [⟨SetOp, [107], longBytes⟩])).searchSSTFile 1 [107] = .ok cutBytes
      ∧ scanOutcome [⟨SetOp, [107], longBytes⟩] [107] = .ok longBytes
      ∧ cutBytes ≠ longBytes :=
  ⟨(scan_short_value (List.replicate 1073741824 1) 1 (List.length_replicate _ _)).1,
    (scan_short_value (List.replicate 1073741824 1) 1 (List.length_replicate _ _)).2,
    cutBytes_ne⟩

/-- C14: for every SST file whose header reads without error,
`searchSSTFile` returns `ErrCorruptedFile` (and no value) whenever the 4
magic bytes of the header differ from the magic number of the engine,
whatever the version byte, and `ErrOutdatedVersion` (and no value)
whenever the magic matches and the version byte differs from the version
of the engine; in both cases for every key and whatever follows the
header. -/
theorem header_validation (db : lsmDB) (n : Nat) (file rest magic : Bytes) (count : Nat)
    (smallestKey largestKey : Bytes) (version : Byte)
    (hfile : db.sst n = some file)
    (hheader : readHeader file = (.ok (magic, count, smallestKey, largestKey, version), rest)) :
    (magic ≠ magicBytes db.magicNumber →
        ∀ key, db.searchSSTFile n key = .error Err.corruptedFile)
      ∧ (magic = magicBytes db.magicNumber → version ≠ db.version →
        ∀ key, db.searchSSTFile n key = .error Err.outdatedVersion) := by
  constructor
  · intro hm key
    unfold lsmDB.searchSSTFile
    simp only [hfile, hheader, ne_eq, hm, not_false_eq_true, if_true]
  · intro hm hv key
    unfold lsmDB.searchSSTFile
    simp only [hfile, hheader, ne_eq, hm, not_true_eq_false, if_false, hv, not_false_eq_true,
      if_true]

/-- C14 at a file with the magic of the engine and version 2 that holds
`Set("a", "x")`, searched for `"a"` by an engine of version 1. -/
theorem header_validation_witness :
    (withFile sampleDB 1
        (headerOf (76, 83, 77, 68) 2 1 [97] [97]
          ++ encodeAll [⟨SetOp, [97], [120]⟩])).searchSSTFile 1 [97]
      = .error Err.outdatedVersion :=
  (header_validation _ 1
    (headerOf (76, 83, 77, 68) 2 1 [97] [97] ++ encodeAll [⟨SetOp, [97], [120]⟩])
    (encodeAll [⟨SetOp, [97], [120]⟩]) (magicBytes (76, 83, 77, 68)) 1 [97] [97] 2
    rfl rfl).2 (by decide) (by decide) [97]

/-! ## The SST header (C17) -/

/-- The defect of `readHeader`: a largest key longer than `2^30` bytes is
read by one `file.Read`, whose byte count is dropped; the key comes back
with its first `2^30` bytes `xs` followed by zeros, the next byte `y` of
the key is returned as the version, and the read position is left inside
the key. -/
theorem readHeader_short_key (magic : Byte × Byte × Byte × Byte) (version : Byte) (count : Nat)
    (sk xs ys rest : Bytes) (y : Byte) (hs : sk.length ≤ 1073741824)
    (hx : xs.length = 1073741824) (hlen : (xs ++ y :: ys).length < 4294967296) :
    readHeader (headerOf magic version count sk (xs ++ y :: ys) ++ rest)
      = (.ok (magicBytes magic, count % 4294967296, sk,
            xs ++ List.replicate (ys.length + 1) 0, y), ys ++ version :: rest) := by
  have h12 : headerOf magic version count sk (xs ++ y :: ys) ++ rest
      = (magicBytes magic ++ encode4BytesInt count ++ encode4BytesInt sk.length)
        ++ (sk ++ (encode4BytesInt (xs ++ y :: ys).length
          ++ (xs ++ (y :: ys) ++ (version :: rest)))) := by
    simp [headerOf, List.append_assoc]
  have hr := fileRead_append (magicBytes magic ++ encode4BytesInt count ++ encode4BytesInt sk.length)
    (sk ++ (encode4BytesInt (xs ++ y :: ys).length ++ (xs ++ (y :: ys) ++ (version :: rest))))
    (by simp [magicBytes, encode4BytesInt_length])
  have hlen12 : (magicBytes magic ++ encode4BytesInt count ++ encode4BytesInt sk.length).length
      = 12 := rfl
  rw [hlen12] at hr
  have ht1 : (magicBytes magic ++ encode4BytesInt count ++ encode4BytesInt sk.length).take 4
      = magicBytes magic := rfl
  have ht2 : ((magicBytes magic ++ encode4BytesInt count ++ encode4BytesInt sk.length).drop 4).take 4
      = encode4BytesInt count := rfl
  have ht3 : ((magicBytes magic ++ encode4BytesInt count ++ encode4BytesInt sk.length).drop 8).take 4
      = encode4BytesInt sk.length := rfl
  have hshort := fileRead_short xs (y :: ys) (version :: rest) hx (by simp)
  rw [h12]
  unfold readHeader
  rw [hr]
  simp only [ht1, ht2, ht3]
  rw [fileRead_key _ hs _ _ rfl]
  simp only [fileRead_encode4]
  rw [decode_encode4BytesInt _ hlen, List.length_append, hshort]
  simp only [List.cons_append, fileRead_one, List.headD_cons, decode_encode4BytesInt_mod,
    List.length_cons]

/-- C17 fails on the code: for the magic `LSMD`, entry count 2, smallest
key `"a"`, a largest key of `2^30 + 1` bytes `0x01` and version 2,
`readHeader` on the layout `createHeader` emits, followed by the byte 9,
returns no error, the largest key `cutBytes` (last byte zero) and the
version 1 (the last byte of the key), and leaves the version byte 2
unread before the further byte. -/
theorem header_key_cut :
    readHeader (headerOf (76, 83, 77, 68) 2 2 [97] longBytes ++ [9])
        = (.ok ([76, 83, 77, 68], 2, [97], cutBytes, 1), [2, 9])
      ∧ cutBytes ≠ longBytes :=
  ⟨readHeader_short_key (76, 83, 77, 68) 2 2 [97] (List.replicate 1073741824 1) [] [9] 1
      (by decide) (List.length_replicate _ _)
      (by rw [List.length_append, List.length_replicate]; decide),
    cutBytes_ne⟩

/-! ## The metadata file (C20) -/

theorem decode4_eq_bigEndianValue (c : Bytes) (h : c.length = 4) :
    decode4BytesInt c = bigEndianValue c := by
  match c, h with
  | [a, b, c, d], _ =>
    simp only [decode4BytesInt, bigEndianValue, List.foldl]
    ring

/-- C20: with a readable metadata file, `setCurrentSSTIndex` returns
`ErrCorruptedFile` and leaves `sstFilesNum` (and the whole engine)
unchanged if and only if the file is not exactly 4 bytes long, and
otherwise returns nil and sets `sstFilesNum` to the big-endian value of
the 4 bytes; `updateMetadataFile` replaces the content of the file by 4
bytes whose big-endian value is `sstFilesNum mod 2^32`, which is the
4-byte big-endian encoding of `sstFilesNum` for a counter below 2^32, so
that a store followed by a load (into an engine with any counter) yields
the counter again. -/
theorem metadata_load_store (db : lsmDB) (content : Bytes) (h : db.metadata = some content) :
    ((db.setCurrentSSTIndex.1 = some Err.corruptedFile
          ∧ db.setCurrentSSTIndex.2.sstFilesNum = db.sstFilesNum) ↔ content.length ≠ 4)
      ∧ (content.length ≠ 4 → db.setCurrentSSTIndex = (some Err.corruptedFile, db))
      ∧ (content.length = 4 →
          db.setCurrentSSTIndex = (none, { db with sstFilesNum := bigEndianValue content }))
      ∧ db.updateMetadataFile
          = (none, { db with metadata := some (encode4BytesInt db.sstFilesNum) })
      ∧ (encode4BytesInt db.sstFilesNum).length = 4
      ∧ (∀ b ∈ encode4BytesInt db.sstFilesNum, b < 256)
      ∧ bigEndianValue (encode4BytesInt db.sstFilesNum) = db.sstFilesNum % 4294967296
      ∧ (db.sstFilesNum < 4294967296 →
          IsBE32 (encode4BytesInt db.sstFilesNum) db.sstFilesNum
          ∧ ∀ counter : Nat,
              ({ db.updateMetadataFile.2 with sstFilesNum := counter } : lsmDB).setCurrentSSTIndex
                = (none, db.updateMetadataFile.2)) := by
  have hload4 : content.length = 4 →
      db.setCurrentSSTIndex = (none, { db with sstFilesNum := bigEndianValue content }) := by
    intro h4
    simp [lsmDB.setCurrentSSTIndex, h, h4, decode4_eq_bigEndianValue content h4]
  have hloadn : content.length ≠ 4 → db.setCurrentSSTIndex = (some Err.corruptedFile, db) := by
    intro hn
    simp [lsmDB.setCurrentSSTIndex, h, hn]
  have hstore : db.updateMetadataFile
      = (none, { db with metadata := some (encode4BytesInt db.sstFilesNum) }) := by
    simp [lsmDB.updateMetadataFile, h]
  have hval : bigEndianValue (encode4BytesInt db.sstFilesNum) = db.sstFilesNum % 4294967296 := by
    rw [← decode4_eq_bigEndianValue _ (encode4BytesInt_length _), decode_encode4BytesInt_mod]
  refine ⟨⟨?_, fun hn => by rw [hloadn hn]; exact ⟨rfl, rfl⟩⟩, hloadn, hload4, hstore,
    encode4BytesInt_length _, ?_, hval, ?_⟩
  · rintro ⟨he, _⟩ h4
    rw [hload4 h4] at he
    simp at he
  · intro b hb
    simp only [encode4BytesInt, List.mem_cons, List.mem_singleton, List.not_mem_nil,
      or_false] at hb
    omega
  · intro hK
    refine ⟨encode4BytesInt_isBE32 _ hK, fun counter => ?_⟩
    rw [hstore]
    simp [lsmDB.setCurrentSSTIndex, encode4BytesInt_length, decode_encode4BytesInt _ hK]

/-- C20 at an opened empty engine, whose metadata file holds
`00 00 00 00`. -/
theorem metadata_load_store_witness :
    sampleDB.setCurrentSSTIndex = (none, { sampleDB with sstFilesNum := bigEndianValue [0, 0, 0, 0] })
      ∧ sampleDB.updateMetadataFile
          = (none, { sampleDB with metadata := some (encode4BytesInt sampleDB.sstFilesNum) }) :=
  ⟨(metadata_load_store sampleDB [0, 0, 0, 0] rfl).2.2.1 rfl,
    (metadata_load_store sampleDB [0, 0, 0, 0] rfl).2.2.2.1⟩

/-! ## Memtable size accounting (C19) -/

theorem sizeInBytes_eq (mem : MemTable) : mem.sizeInBytes = blobSizes mem.sortedMap := by
  have h : ∀ (m : List (Bytes × Bytes)) (acc : Nat),
      m.foldl (fun size kv => size + (kv.1.length + kv.2.length)) acc = acc + blobSizes m := by
    intro m
    induction m with
    | nil => intro acc; simp [blobSizes]
    | cons a tl ih =>
      intro acc
      simp only [List.foldl_cons, ih, blobSizes, List.map_cons, List.sum_cons]
      omega
  simpa [MemTable.sizeInBytes] using h mem.sortedMap 0

theorem blobSizes_treeSet (m : List (Bytes × Bytes)) (h : Ascending m) (k b : Bytes) :
    blobSizes (treeSet m k b) + sizeShare m k = blobSizes m + (k.length + b.length) := by
  induction m with
  | nil => simp [treeSet, blobSizes, sizeShare, treeGet]
  | cons a tl ih =>
    obtain ⟨k2, b2⟩ := a
    unfold Ascending at h ih
    rw [List.pairwise_cons] at h
    simp only [treeSet]
    cases hc : bytesCompare k k2 with
    | lt =>
      have hnone : treeGet ((k2, b2) :: tl) k = none :=
        get_none_of_lt_first ((k2, b2) :: tl) (by unfold Ascending; rw [List.pairwise_cons]; exact h)
          k (by simpa [firstKey] using hc)
      simp only [sizeShare, hnone, blobSizes, List.map_cons, List.sum_cons]
      omega
    | eq =>
      have hk : k = k2 := (bytesCompare_eq_iff k k2).1 hc
      subst hk
      simp only [sizeShare, treeGet, if_true, blobSizes, List.map_cons, List.sum_cons]
      omega
    | gt =>
      have hne : k ≠ k2 := by
        intro e
        rw [e, bytesCompare_self] at hc
        cases hc
      have ih' := ih h.2
      simp only [sizeShare, treeGet, hne, if_false, blobSizes, List.map_cons, List.sum_cons]
        at ih' ⊢
      omega

theorem runCalls_ascending (calls : List MemCall) : Ascending (runCalls calls).sortedMap := by
  induction calls using List.reverseRecOn with
  | nil => simp [runCalls, newMemTable, Ascending]
  | append_singleton cs c ih =>
    rw [runCalls_snoc]
    cases c with
    | set k v => exact ascending_treeSet _ k _ ih
    | del k => exact ascending_treeSet _ k _ ih

theorem runCalls_blobs (calls : List MemCall) :
    ∀ it ∈ (runCalls calls).sortedMap, (∃ v, it.2 = SetOp :: v) ∨ it.2 = [DelOp] := by
  induction calls using List.reverseRecOn with
  | nil => intro it hit; simp [runCalls, newMemTable] at hit
  | append_singleton cs c ih =>
    rw [runCalls_snoc]
    intro it hit
    cases c with
    | set k v =>
      rcases mem_treeSet _ _ _ it hit with e | hm
      · left; exact ⟨v, by rw [e]; rfl⟩
      · exact ih it hm
    | del k =>
      rcases mem_treeSet _ _ _ it hit with e | hm
      · right; rw [e]
      · exact ih it hm

/-- C19: for every memtable `sizeInBytes` returns the sum over its
entries of `len(key) + len(stored blob)`; in a memtable built by `Set`
and `Del` calls every stored blob is the Set tag followed by the value or
the Del tag alone.  So the size is 0 for an empty memtable,
`len(k) + len(v) + 1` after a single `Set(k, v)`, and a `Set` or `Del` on
a memtable built by calls replaces the share of its key (nothing when the
key is absent) by the share of the new blob: an overwritten key is
counted once, with its latest blob. -/
theorem size_accounting (mem : MemTable) (calls : List MemCall) (k v : Bytes) :
    mem.sizeInBytes = blobSizes mem.sortedMap
      ∧ (∀ it ∈ (runCalls calls).sortedMap, (∃ w, it.2 = SetOp :: w) ∨ it.2 = [DelOp])
      ∧ newMemTable.sizeInBytes = 0
      ∧ (newMemTable.Set k v).sizeInBytes = k.length + v.length + 1
      ∧ ((runCalls calls).Set k v).sizeInBytes + sizeShare (runCalls calls).sortedMap k
          = (runCalls calls).sizeInBytes + (k.length + (1 + v.length))
      ∧ ((runCalls calls).Del k).sizeInBytes + sizeShare (runCalls calls).sortedMap k
          = (runCalls calls).sizeInBytes + (k.length + 1)
      ∧ ∀ w : Bytes, (((runCalls calls).Set k v).Set k w).sizeInBytes + v.length
          = ((runCalls calls).Set k v).sizeInBytes + w.length := by
  have hasc := runCalls_ascending calls
  have hset := blobSizes_treeSet _ hasc k ([SetOp] ++ v)
  have hdel := blobSizes_treeSet _ hasc k [DelOp]
  have hset2 := fun w : Bytes =>
    blobSizes_treeSet _ (ascending_treeSet _ k ([SetOp] ++ v) hasc) k ([SetOp] ++ w)
  refine ⟨sizeInBytes_eq mem, runCalls_blobs calls, rfl, ?_, ?_, ?_, ?_⟩
  · simp [sizeInBytes_eq, MemTable.Set, newMemTable, treeSet, blobSizes]
    omega
  · simp only [sizeInBytes_eq, MemTable.Set]
    simp only [List.singleton_append, List.length_cons] at hset ⊢
    omega
  · simp only [sizeInBytes_eq, MemTable.Del]
    simpa using hdel
  · intro w
    have h2 := hset2 w
    simp only [sizeInBytes_eq, MemTable.Set]
    simp only [sizeShare, treeGet_treeSet, if_true] at h2
    simp only [List.singleton_append, List.length_cons] at h2 ⊢
    omega

/-! ## WAL replay (C15) -/

theorem writeOperation_ascending (mem : MemTable) (op : Byte) (key value : Bytes)
    (h : Ascending mem.sortedMap) : Ascending (mem.writeOperation op key value).sortedMap := by
  unfold MemTable.writeOperation
  split_ifs
  · exact ascending_treeSet _ _ _ h
  · exact ascending_treeSet _ _ _ h
  · exact h

theorem replay_ascending (es : List Entry) (mem : MemTable) (h : Ascending mem.sortedMap) :
    Ascending (replay es mem).sortedMap := by
  induction es generalizing mem with
  | nil => exact h
  | cons e es ih =>
    simp only [replay, List.foldl_cons]
    exact ih _ (writeOperation_ascending mem e.op e.key e.value h)

theorem get_writeOperation_other (mem : MemTable) (op : Byte) (key value k : Bytes)
    (h : k ≠ key) : (mem.writeOperation op key value).Get k = mem.Get k := by
  unfold MemTable.writeOperation
  split_ifs <;> simp [MemTable.Get, treeGet_treeSet, h]

theorem get_writeOperation_same (mem : MemTable) (e : Entry) (h : e.op = SetOp ∨ e.op = DelOp) :
    (mem.writeOperation e.op e.key e.value).Get e.key = outcomeOfLastEntry (some e) := by
  rcases h with h1 | h1
  · simp [MemTable.writeOperation, h1, MemTable.Get, treeGet_treeSet, parseInMemValue,
      outcomeOfLastEntry]
  · simp [MemTable.writeOperation, h1, MemTable.Get, treeGet_treeSet, parseInMemValue,
      outcomeOfLastEntry]

theorem replay_get (es : List Entry) (hes : ∀ e ∈ es, e.op = SetOp ∨ e.op = DelOp) (k : Bytes) :
    (replay es newMemTable).Get k = outcomeOfLastEntry (lastEntryOn es k) := by
  induction es using List.reverseRecOn with
  | nil => rfl
  | append_singleton es e ih =>
    have ih' := ih (fun x hx => hes x (List.mem_append_left _ hx))
    have he := hes e (List.mem_append_right _ (List.mem_singleton_self e))
    rw [replay_snoc]
    by_cases hk : e.key = k
    · have hlast : lastEntryOn (es ++ [e]) k = some e := by
        simp [lastEntryOn, List.find?, hk]
      rw [hlast, ← hk]
      exact get_writeOperation_same _ e he
    · have hlast : lastEntryOn (es ++ [e]) k = lastEntryOn es k := by
        simp [lastEntryOn, List.find?, hk]
      rw [hlast, get_writeOperation_other _ _ _ _ _ (fun h => hk h.symm), ih']

theorem replay_short_value (xs : Bytes) (y : Byte) (hx : xs.length = 1073741824) :
    (withWal sampleDB (encodeAll [⟨SetOp, [107], xs ++ [y]⟩])).loadWALtoMemTable.1 = none
      ∧ (withWal sampleDB (encodeAll [⟨SetOp, [107], xs ++ [y]⟩])).loadWALtoMemTable.2.memTable
          = ⟨[([107], SetOp :: (xs ++ [0]))]⟩
      ∧ replay [⟨SetOp, [107], xs ++ [y]⟩] newMemTable = ⟨[([107], SetOp :: (xs ++ [y]))]⟩ := by
  have h := loadWAL_short_value (withWal sampleDB (encodeAll [⟨SetOp, [107], xs ++ [y]⟩])) [107]
    xs y (by simp [withWal, encodeAll]) (by decide) hx
  refine ⟨by rw [h], ?_, ?_⟩
  · rw [h]
    simp [withWal, sampleDB_eq, newDB, newMemTable, MemTable.writeOperation, treeSet]
  · simp [replay, MemTable.writeOperation, newMemTable, treeSet]

/-- C15 fails on the code: the WAL holds the encoding of the one entry
`Set("k", v)` with a value `v` of `2^30 + 1` bytes `0x01`.
`loadWALtoMemTable` on an empty memtable returns nil, but the memtable it
leaves holds `cutBytes` for `"k"`, the value with its last byte zero,
where `writeOperation` applied to the entry stores `v`: the value is read
with one `file.Read`, which transfers `2^30` bytes, and the byte count is
dropped. -/
theorem wal_replay_value_cut :
    (withWal sampleDB (encodeAll [⟨SetOp, [107], longBytes⟩])).loadWALtoMemTable.1 = none
      ∧ (withWal sampleDB (encodeAll [⟨SetOp, [107], longBytes⟩])).loadWALtoMemTable.2.memTable
          = ⟨[([107], SetOp :: cutBytes)]⟩
      ∧ replay [⟨SetOp, [107], longBytes⟩] newMemTable = ⟨[([107], SetOp :: longBytes)]⟩
      ∧ cutBytes ≠ longBytes :=
  ⟨(replay_short_value (List.replicate 1073741824 1) 1 (List.length_replicate _ _)).1,
    (replay_short_value (List.replicate 1073741824 1) 1 (List.length_replicate _ _)).2.1,
    (replay_short_value (List.replicate 1073741824 1) 1 (List.length_replicate _ _)).2.2,
    cutBytes_ne⟩

/-! ## The content of the WAL (C16) -/

theorem get_wal (db : lsmDB) (key : Bytes) : (db.Get key).2.wal = db.wal := by
  rcases get_state db key with e | ⟨c, _, _, e⟩ <;> rw [e]

theorem del_wal (db : lsmDB) (key v : Bytes) (h : (db.Del key).1 = .ok v) :
    (db.Del key).2.wal = db.wal ++ (Entry.mk DelOp key []).encode := by
  have hw := get_wal db key
  unfold lsmDB.Del at h ⊢
  cases hres : db.Get key with
  | mk r db1 =>
    rw [hres] at h hw
    cases r with
    | error e => simp at h
    | ok w =>
      simp only [lsmDB.appendEntry] at hw ⊢
      rw [hw]

theorem reachable_walLog (db : lsmDB) (h : Reachable db) : ∃ log, WalLog db log := by
  induction h with
  | opened magic version threshold => exact ⟨[], WalLog.start _ (by rw [open_newDB]; rfl)⟩
  | set db key value _ _ _ hok ih =>
    obtain ⟨log, hl⟩ := ih
    by_cases hth : db.memSizeThreshold ≤ ((db.memTable.Set key value).sizeInBytes : Int)
    · exact ⟨[], WalLog.setFlushed db log key value hl hok hth⟩
    · exact ⟨_, WalLog.setKept db log key value hl hok (not_le.1 hth)⟩
  | del db key v _ _ hok ih =>
    obtain ⟨log, hl⟩ := ih
    exact ⟨_, WalLog.del db log key v hl hok⟩

/-- C16: in every engine state reached from an engine with an empty WAL
by successful `Set`/`Del` calls, the WAL file is exactly the
concatenation, in call order, of the encodings of the Set and Del
operations accepted since the last flush (so it is empty right after a
flush); `appendEntry` extends the file by the encoding of the entry at
its end and changes no earlier byte, and a successful `flushToDisk`
leaves the WAL empty. -/
theorem wal_content (db : lsmDB) (log : List Entry) (h : WalLog db log) :
    db.wal = encodeAll log
      ∧ (∀ e : Entry, (db.appendEntry e).wal = db.wal ++ e.encode)
      ∧ (db.flushToDisk.1 = none → db.flushToDisk.2.wal = []) := by
  refine ⟨?_, fun _ => rfl, fun hf => (flushToDisk_success db hf).2.2.2.2.2⟩
  induction h with
  | start db hw => exact hw
  | setKept db log key value _ hok hth ih =>
    rw [set_unfold, if_neg (not_le.2 hth)]
    simp [lsmDB.buffered, lsmDB.appendEntry, encodeAll_append, encodeAll, ih]
  | setFlushed db log key value _ hok hth ih =>
    rw [set_unfold, if_pos hth] at hok ⊢
    split_ifs at hok ⊢ with hf
    · exact (flushToDisk_success _ hf).2.2.2.2.2
    · exact absurd hok hf
  | del db log key v _ hok ih =>
    rw [del_wal db key v hok, ih]
    simp [encodeAll_append, encodeAll]

/-- C16 at the engine after `Set("key1", "value1")` on an opened empty
engine with threshold 100: the WAL holds the encoding of this Set. -/
theorem wal_content_witness :
    sampleBuffered.wal
      = encodeAll [⟨SetOp, [107, 101, 121, 49], [118, 97, 108, 117, 101, 49]⟩] :=
  (wal_content sampleBuffered [⟨SetOp, [107, 101, 121, 49], [118, 97, 108, 117, 101, 49]⟩]
    (WalLog.setKept sampleDB [] [107, 101, 121, 49] [118, 97, 108, 117, 101, 49]
      (WalLog.start sampleDB (by decide)) (by decide) (by decide))).1

/-! ## Metadata consistency (C11) -/

theorem del_files (db : lsmDB) (key : Bytes) :
    (db.Del key).2.sst = db.sst ∧ (db.Del key).2.sstFilesNum = (db.Get key).2.sstFilesNum
      ∧ (db.Get key).2.sst = db.sst := by
  have hs : (db.Get key).2.sst = db.sst := by
    rcases get_state db key with e | ⟨c, _, _, e⟩ <;> rw [e]
  unfold lsmDB.Del
  cases hres : db.Get key with
  | mk r db1 =>
    rw [hres] at hs
    cases r with
    | error e => exact ⟨hs, rfl, hs⟩
    | ok w => exact ⟨hs, rfl, hs⟩

/-- While `f4294967296.sst` has not been written, the counter of a
reachable state is below 2^32 and the SST files that exist are exactly
those numbered 1 to the counter. -/
theorem reachable_files (db : lsmDB) (h : Reachable db) (hfew : db.sst 4294967296 = none) :
    db.sstFilesNum < 4294967296 ∧ ∀ i, db.sst i ≠ none ↔ (1 ≤ i ∧ i ≤ db.sstFilesNum) := by
  induction h with
  | opened magic version threshold =>
    rw [open_newDB]
    refine ⟨by simp [newDB], fun i => ?_⟩
    simp only [newDB]
    constructor
    · intro hc; exact absurd rfl hc
    · intro hc; omega
  | set db key value hr hk hv _ ih =>
    have hinv := reachable_inv db hr
    rw [set_eq db key value hinv hk hv] at hfew ⊢
    split_ifs at hfew ⊢ with hth
    · simp only [writeFile] at hfew
      by_cases hK : 4294967296 = db.sstFilesNum + 1
      · simp [hK] at hfew
      · simp only [hK, if_false] at hfew
        obtain ⟨hlt, hex⟩ := ih hfew
        refine ⟨by simp only; omega, fun i => ?_⟩
        simp only [writeFile]
        by_cases hi : i = db.sstFilesNum + 1
        · simp [hi]
        · simp only [hi, if_false, hex i]
          omega
    · exact ih hfew
  | del db key v hr hk _ ih =>
    obtain ⟨hs, hc, _⟩ := del_files db key
    rw [hs] at hfew ⊢
    obtain ⟨hlt, hex⟩ := ih hfew
    have hcount : (db.Get key).2.sstFilesNum = db.sstFilesNum := by
      rcases get_state db key with e | ⟨c, hmeta, _, e⟩
      · rw [e]
      · rw [e]
        have hm := (reachable_inv db hr).2.1
        rw [hm] at hmeta
        injection hmeta with hmeta
        rw [← hmeta]
        exact decode_encode4BytesInt _ hlt
    rw [hc, hcount]
    exact ⟨hlt, hex⟩

/-- C11 (amended): in every engine state reachable from an opened empty
engine by successful `Set`/`Del` calls in which `f4294967296.sst` has not
been written (fewer than 2^32 flushes have happened), the in-memory
counter `sstFilesNum` equals the 4-byte big-endian value stored in the
metadata file, and the existing SST files are exactly `f1.sst`, ...,
`f<K>.sst` for that `K`; and in every engine state a successful flush
raises the in-memory counter by exactly one and stores it in the metadata
file. -/
theorem metadata_consistency (db : lsmDB) (h : Reachable db)
    (hfew : db.sst 4294967296 = none) :
    MetadataConsistent db
      ∧ ∀ d : lsmDB, d.flushToDisk.1 = none →
          d.flushToDisk.2.sstFilesNum = d.sstFilesNum + 1
          ∧ d.flushToDisk.2.metadata = some (encode4BytesInt (d.sstFilesNum + 1)) := by
  obtain ⟨hlt, hex⟩ := reachable_files db h hfew
  refine ⟨⟨⟨_, (reachable_inv db h).2.1, encode4BytesInt_isBE32 _ hlt⟩, hex⟩, ?_⟩
  intro d hd
  refine ⟨(flushToDisk_success d hd).1, ?_⟩
  unfold lsmDB.flushToDisk at hd ⊢
  cases hh : d.createHeader with
  | error e => simp [hh] at hd
  | ok header =>
    simp only [hh] at hd ⊢
    cases hw : (flushEntries d.memTable d.memTable.sortedMap).2 with
    | some e => simp [hw] at hd
    | none =>
      simp only [hw, lsmDB.updateMetadataFile] at hd ⊢
      cases hm : d.metadata with
      | none => simp [hm] at hd
      | some c => simp [hm]

/-- C11 at a reachable state with one SST file. -/
theorem metadata_consistency_witness : MetadataConsistent sampleFlushed :=
  (metadata_consistency sampleFlushed
    (Reachable.set _ [107] [118] (Reachable.opened _ _ _) (by decide) (by decide) (by decide))
    (by decide)).1

theorem flood_metadata (N : Nat) (hN : N = 4294967296) :
    Reachable (floodDB N) ∧ (floodDB N).sstFilesNum = 4294967296
      ∧ (floodDB N).metadata = some [0, 0, 0, 0]
      ∧ bigEndianValue [0, 0, 0, 0] = 0
      ∧ ¬ MetadataConsistent (floodDB N) := by
  have hr := floodDB_reachable N
  have hcount : (floodDB N).sstFilesNum = 4294967296 := by
    rw [(floodDB_state N).2.2.1, hN]
  have hmeta := (reachable_inv _ hr).2.1
  rw [hcount] at hmeta
  refine ⟨hr, hcount, by rw [hmeta]; rfl, rfl, ?_⟩
  rintro ⟨⟨c, _, hc⟩, _⟩
  have := isBE32_lt c _ hc
  omega

/-- C11 fails as stated: after 2^32 flushing `Set` calls on an opened
empty engine with threshold 0 the in-memory counter is 2^32, but the
metadata file holds `uint32(2^32)`, the bytes `00 00 00 00`, whose
big-endian value is 0. -/
theorem metadata_consistency_counterexample :
    Reachable (floodDB 4294967296) ∧ (floodDB 4294967296).sstFilesNum = 4294967296
      ∧ (floodDB 4294967296).metadata = some [0, 0, 0, 0]
      ∧ bigEndianValue [0, 0, 0, 0] = 0
      ∧ ¬ MetadataConsistent (floodDB 4294967296) :=
  flood_metadata 4294967296 rfl

/-! ## Truncated streams (C18) -/

/-- C18 fails on the code: `decodeNext` checks the error of each
`file.Read` but not the number of bytes read, so a stream that ends in
the middle of a field is decoded without an error, the missing bytes
read as zero.  The encoding of `Del("key")` without its last byte decodes
to `Del("ke\0")`; its first three bytes (the middle of the key length)
decode to `Del("")`; the encoding of `Set("k", "vw")` without its last
byte decodes to `Set("k", "v\0")`. -/
theorem truncation_not_reported :
    (Entry.mk DelOp [107, 101, 121] []).encode = [2, 0, 0, 0, 3, 107, 101] ++ [121]
      ∧ decodeNext [2, 0, 0, 0, 3, 107, 101] = (.ok (DelOp, [107, 101, 0], []), [])
      ∧ (Entry.mk DelOp [107, 101, 121] []).encode = [2, 0, 0] ++ [0, 3, 107, 101, 121]
      ∧ decodeNext [2, 0, 0] = (.ok (DelOp, [], []), [])
      ∧ (Entry.mk SetOp [107] [118, 119]).encode
          = [1, 0, 0, 0, 1, 107, 0, 0, 0, 2, 118] ++ [119]
      ∧ decodeNext [1, 0, 0, 0, 1, 107, 0, 0, 0, 2, 118] = (.ok (SetOp, [107], [118, 0]), []) :=
  ⟨rfl, rfl, rfl, rfl, rfl, rfl⟩

/-! ## The op tag in the size accounting (C23) -/

theorem valueSizes_add_length (m : List (Bytes × Bytes))
    (h : ∀ it ∈ m, (∃ w, it.2 = SetOp :: w) ∨ it.2 = [DelOp]) :
    blobSizes m = valueSizes m + m.length := by
  induction m with
  | nil => rfl
  | cons a tl ih =>
    have ih' := ih (fun it hit => h it (List.mem_cons_of_mem _ hit))
    have ha := h a (List.mem_cons_self _ _)
    simp only [blobSizes, valueSizes, List.map_cons, List.sum_cons, List.length_cons] at ih' ⊢
    rcases ha with ⟨w, hw⟩ | hd
    · rw [hw]
      simp only [List.length_cons, List.tail_cons]
      omega
    · rw [hd]
      simp only [List.length_cons, List.length_nil, List.tail_cons]
      omega

/-- C23 (amended): `MemTable.sizeInBytes` does count the in-memory op tag
byte: for every memtable built by `Set` and `Del` calls the returned size
is the sum over the entries of `len(key) + len(value)` plus one per
entry (`len(k) + len(v) + 1` after a single `Set(k, v)`), so the quantity
compared with `memSizeThreshold` is exactly the number of key and blob
bytes stored. -/
theorem size_counts_tag (calls : List MemCall) (k v : Bytes) :
    (runCalls calls).sizeInBytes
        = valueSizes (runCalls calls).sortedMap + (runCalls calls).sortedMap.length
      ∧ (runCalls calls).sizeInBytes = blobSizes (runCalls calls).sortedMap
      ∧ (newMemTable.Set k v).sizeInBytes = k.length + v.length + 1 := by
  refine ⟨?_, sizeInBytes_eq _, ?_⟩
  · rw [sizeInBytes_eq]
    exact valueSizes_add_length _ (runCalls_blobs calls)
  · simp [sizeInBytes_eq, MemTable.Set, newMemTable, treeSet, blobSizes]
    omega

/-- C23 fails as stated: after the single call `Set("k", "v")` the size is
3, the key byte, the value byte and the tag byte, not
`len(k) + len(v) = 2`. -/
theorem size_counts_tag_counterexample :
    (newMemTable.Set [107] [118]).sizeInBytes = 3
      ∧ valueSizes (newMemTable.Set [107] [118]).sortedMap = 2
      ∧ (newMemTable.Set [107] [118]).sizeInBytes
          ≠ valueSizes (newMemTable.Set [107] [118]).sortedMap := by
  decide

/-! ## The stored blobs (C26) -/

theorem runSteps_snoc (ss : List MemStep) (s : MemStep) :
    runSteps (ss ++ [s]) = s.run (runSteps ss) := by
  simp [runSteps, List.foldl_append]

theorem run_ascending (mem : MemTable) (s : MemStep) (h : Ascending mem.sortedMap) :
    Ascending (s.run mem).sortedMap := by
  cases s with
  | set k v => exact ascending_treeSet _ _ _ h
  | del k => exact ascending_treeSet _ _ _ h
  | write op k v => exact writeOperation_ascending mem op k v h

theorem run_tagged (mem : MemTable) (s : MemStep) (h : ∀ it ∈ mem.sortedMap, Tagged it.2) :
    ∀ it ∈ (s.run mem).sortedMap, Tagged it.2 := by
  have hset : ∀ (k v : Bytes), ∀ it ∈ treeSet mem.sortedMap k ([SetOp] ++ v), Tagged it.2 := by
    intro k v it hit
    rcases mem_treeSet _ _ _ it hit with e | hm
    · rw [e]; exact ⟨SetOp, v, rfl, Or.inl rfl⟩
    · exact h it hm
  have hdel : ∀ (k : Bytes), ∀ it ∈ treeSet mem.sortedMap k [DelOp], Tagged it.2 := by
    intro k it hit
    rcases mem_treeSet _ _ _ it hit with e | hm
    · rw [e]; exact ⟨DelOp, [], rfl, Or.inr rfl⟩
    · exact h it hm
  cases s with
  | set k v => exact hset k v
  | del k => exact hdel k
  | write op k v =>
    simp only [MemStep.run, MemTable.writeOperation]
    split_ifs
    · exact hset k v
    · exact hdel k
    · exact h

theorem runSteps_invariant (steps : List MemStep) :
    Ascending (runSteps steps).sortedMap ∧ ∀ it ∈ (runSteps steps).sortedMap, Tagged it.2 := by
  induction steps using List.reverseRecOn with
  | nil =>
    refine ⟨by simp [runSteps, newMemTable, Ascending], ?_⟩
    intro it hit
    simp [runSteps, newMemTable] at hit
  | append_singleton ss s ih =>
    rw [runSteps_snoc]
    exact ⟨run_ascending _ s ih.1, run_tagged _ s ih.2⟩

/-- C26: after any sequence of `MemTable.Set`, `MemTable.Del` and
`MemTable.writeOperation` calls (with any op byte) on an empty memtable,
every stored blob is non-empty and its first byte is 0x01 or 0x02; so
`MemTable.Get` never panics, `makeEntry` does not panic for a key taken
from the iterator of the memtable, and `MemTable.Get` returns
`ErrKeyNotFound` exactly for the keys that are absent. -/
theorem stored_blob_invariant (steps : List MemStep) :
    (∀ it ∈ (runSteps steps).sortedMap, Tagged it.2)
      ∧ (∀ k, (runSteps steps).Get k ≠ .error Err.panicked)
      ∧ (∀ it ∈ (runSteps steps).sortedMap, ∃ e, (runSteps steps).makeEntry it.1 = .ok e)
      ∧ (∀ k, (runSteps steps).Get k = .error Err.keyNotFound
          ↔ treeGet (runSteps steps).sortedMap k = none) := by
  obtain ⟨hasc, htag⟩ := runSteps_invariant steps
  have hget : ∀ k, ((runSteps steps).Get k = .error Err.keyNotFound
      ↔ treeGet (runSteps steps).sortedMap k = none)
      ∧ (runSteps steps).Get k ≠ .error Err.panicked := by
    intro k
    unfold MemTable.Get
    cases hg : treeGet (runSteps steps).sortedMap k with
    | none => simp
    | some blob =>
      obtain ⟨b, rest, hb, hop⟩ := htag (k, blob) (treeGet_some_mem _ _ _ hg)
      simp only at hb
      subst hb
      rcases hop with h1 | h1 <;> subst h1 <;> simp [parseInMemValue]
  refine ⟨htag, fun k => (hget k).2, ?_, fun k => (hget k).1⟩
  intro it hit
  have hg := treeGet_of_mem _ hasc it hit
  obtain ⟨b, rest, hb, _⟩ := htag it hit
  unfold MemTable.makeEntry
  rw [hg, hb]
  simp only [Option.getD_some, parseInMemValue]
  split_ifs <;> exact ⟨_, rfl⟩

/-! ## Range pruning (C25) -/

theorem bytesCompare_last_gt (xs : Bytes) (y : Byte) (hy : 0 < y) :
    bytesCompare (xs ++ [y]) (xs ++ [0]) = .gt := by
  induction xs with
  | nil =>
    simp only [List.nil_append, bytesCompare]
    rw [if_neg (by omega), if_pos hy]
  | cons x xs ih =>
    simp only [List.cons_append, bytesCompare]
    rw [if_neg (by omega), if_neg (by omega)]
    exact ih

/-- The defect of `readHeader` seen through `searchSSTFile`: the memtable
holds the key of one zero byte and a key `K` of `2^30 + 1` bytes that
starts with a non-zero byte and ends with the byte 1.  The flush succeeds
and writes a file whose header holds the range from the zero byte key to
`K`, with an entry for `K`.  Reading the header back, `searchSSTFile`
gets the largest key with its last byte zero, takes the last byte of `K`
for the version, finds `K` above the largest key and returns
`ErrKeyNotFound`. -/
theorem wide_key_hidden (db : lsmDB) (key xs : Bytes) (x : Byte) (xt : Bytes)
    (hdb : db = wideOf key) (hkey : key = xs ++ [1]) (hx : xs.length = 1073741824)
    (hhead : xs = x :: xt) (hx0 : 0 < x) :
    db.memTable.Get key = .ok [98]
      ∧ db.flushToDisk.1 = none
      ∧ db.flushToDisk.2.sst 1
          = some (headerOf (76, 83, 77, 68) 1 2 [0] key
              ++ encodeAll [⟨SetOp, [0], [97]⟩, ⟨SetOp, key, [98]⟩])
      ∧ db.flushToDisk.2.searchSSTFile 1 key = .error Err.keyNotFound := by
  subst hdb
  subst hkey
  have hlen : (xs ++ [1]).length < 4294967296 := by simp [hx]
  have hmap : (wideOf (xs ++ [1])).memTable.sortedMap
      = [([0], [1, 97]), (xs ++ [1], [1, 98])] := by
    rw [hhead]
    simp only [wideOf, MemTable.Set, newMemTable, treeSet, List.cons_append, bytesCompare]
    rw [if_neg (by omega), if_pos hx0]
    rfl
  have hm : MemOK (wideOf (xs ++ [1])).memTable.sortedMap :=
    memOK_treeSet _ _ _ (memOK_treeSet [] [0] _ memOK_nil (by decide) (validBlob_set [97] (by decide)))
      hlen (validBlob_set [98] (by decide))
  have hne : (wideOf (xs ++ [1])).memTable.sortedMap ≠ [] := by rw [hmap]; simp
  have hflush := flushToDisk_ok (wideOf (xs ++ [1])) hm hne [0, 0, 0, 0]
    (by simp [wideOf, sampleDB_eq, newDB])
  have himg : sstImage (76, 83, 77, 68) 1 (wideOf (xs ++ [1])).memTable.sortedMap
      = headerOf (76, 83, 77, 68) 1 2 [0] (xs ++ [1])
          ++ encodeAll [⟨SetOp, [0], [97]⟩, ⟨SetOp, xs ++ [1], [98]⟩] := by
    rw [hmap]
    simp [sstImage, firstKey, lastKey, blobEntry]
  have hfile : (wideOf (xs ++ [1])).flushToDisk.2.sst 1
      = some (headerOf (76, 83, 77, 68) 1 2 [0] (xs ++ [1])
          ++ encodeAll [⟨SetOp, [0], [97]⟩, ⟨SetOp, xs ++ [1], [98]⟩]) := by
    rw [hflush, ← himg]
    simp [writeFile, wideOf, sampleDB_eq, newDB]
  refine ⟨?_, by rw [hflush], hfile, ?_⟩
  · simp only [wideOf]
    exact get_set_same _ _ _
  · have hhd := readHeader_short_key (76, 83, 77, 68) 1 2 [0] xs []
      (encodeAll [⟨SetOp, [0], [97]⟩, ⟨SetOp, xs ++ [1], [98]⟩]) 1 (by decide) hx hlen
    have hgt := bytesCompare_last_gt xs 1 (by decide)
    have hone : List.replicate (([] : Bytes).length + 1) 0 = [0] := rfl
    rw [hone] at hhd
    have hmagic : (wideOf (xs ++ [1])).flushToDisk.2.magicNumber = (76, 83, 77, 68) := by
      rw [hflush]; simp [wideOf, sampleDB_eq, newDB]
    have hversion : (wideOf (xs ++ [1])).flushToDisk.2.version = 1 := by
      rw [hflush]; simp [wideOf, sampleDB_eq, newDB]
    unfold lsmDB.searchSSTFile
    rw [hfile]
    simp only [hhd, hmagic, hversion, ne_eq, not_true_eq_false, if_false]
    rw [if_pos (Or.inr hgt)]

/-- C25 fails on the code: the memtable holds the key of one zero byte and
the key `longBytes` (`2^30 + 1` bytes `0x01`).  `flushToDisk` succeeds
and writes `f1.sst` with the range from the zero byte key to `longBytes`
in its header and an entry for `longBytes`; `searchSSTFile` reads the
largest key of the header with one `file.Read`, gets it with its last
byte zero, finds `longBytes` above it and returns `ErrKeyNotFound` for a
key that has an entry in the file. -/
theorem range_prune_hides_key :
    wideDB.memTable.Get longBytes = .ok [98]
      ∧ wideDB.flushToDisk.1 = none
      ∧ wideDB.flushToDisk.2.sst 1
          = some (headerOf (76, 83, 77, 68) 1 2 [0] longBytes
              ++ encodeAll [⟨SetOp, [0], [97]⟩, ⟨SetOp, longBytes, [98]⟩])
      ∧ wideDB.flushToDisk.2.searchSSTFile 1 longBytes = .error Err.keyNotFound :=
  wide_key_hidden wideDB longBytes (List.replicate 1073741824 1) 1 (List.replicate 1073741823 1)
    rfl rfl (List.length_replicate _ _) rfl (by decide)

/-! ## Replaying twice (C21) -/

theorem treeGet_writeOperation (mem : MemTable) (e : Entry) (k : Bytes)
    (h : e.op = SetOp ∨ e.op = DelOp) :
    treeGet (mem.writeOperation e.op e.key e.value).sortedMap k
      = if k = e.key then some (blobOf e) else treeGet mem.sortedMap k := by
  rcases h with h1 | h1
  · simp [MemTable.writeOperation, h1, treeGet_treeSet, blobOf]
  · simp [MemTable.writeOperation, h1, treeGet_treeSet, blobOf]

theorem treeGet_replay (es : List Entry) (hes : ∀ e ∈ es, e.op = SetOp ∨ e.op = DelOp)
    (mem : MemTable) (k : Bytes) :
    treeGet (replay es mem).sortedMap k
      = match lastEntryOn es k with
        | some e => some (blobOf e)
        | none => treeGet mem.sortedMap k := by
  induction es using List.reverseRecOn with
  | nil => rfl
  | append_singleton es e ih =>
    have ih' := ih (fun x hx => hes x (List.mem_append_left _ hx))
    have he := hes e (List.mem_append_right _ (List.mem_singleton_self e))
    rw [replay_snoc, treeGet_writeOperation _ e k he]
    by_cases hk : e.key = k
    · have hlast : lastEntryOn (es ++ [e]) k = some e := by
        simp [lastEntryOn, List.find?, hk]
      simp [hlast, hk]
    · have hlast : lastEntryOn (es ++ [e]) k = lastEntryOn es k := by
        simp [lastEntryOn, List.find?, hk]
      have hk' : ¬ k = e.key := fun h => hk h.symm
      simp only [hlast, hk', if_false, ih']

/-- An ordered map is determined by what `Get` returns for every key. -/
theorem ascending_ext (a b : List (Bytes × Bytes)) (ha : Ascending a) (hb : Ascending b)
    (h : ∀ k, treeGet a k = treeGet b k) : a = b := by
  induction a generalizing b with
  | nil =>
    cases b with
    | nil => rfl
    | cons y tb =>
      have := h y.1
      simp [treeGet] at this
  | cons x ta ih =>
    cases b with
    | nil =>
      have := h x.1
      simp [treeGet] at this
    | cons y tb =>
      obtain ⟨k1, v1⟩ := x
      obtain ⟨k2, v2⟩ := y
      have ha' := ha
      have hb' := hb
      unfold Ascending at ha' hb'
      rw [List.pairwise_cons] at ha' hb'
      have hk : k1 = k2 := by
        by_contra hne
        cases hc : bytesCompare k1 k2 with
        | eq => exact hne ((bytesCompare_eq_iff _ _).1 hc)
        | lt =>
          have h1 := h k1
          rw [get_none_of_lt_first _ hb k1 (by simpa [firstKey] using hc)] at h1
          simp [treeGet] at h1
        | gt =>
          have hc' := (bytesCompare_gt_iff _ _).1 hc
          have h2 := h k2
          rw [get_none_of_lt_first _ ha k2 (by simpa [firstKey] using hc')] at h2
          simp [treeGet] at h2
      subst hk
      have hv : v1 = v2 := by
        have h1 := h k1
        simpa [treeGet] using h1
      subst hv
      have htail : ∀ k, treeGet ta k = treeGet tb k := by
        intro k
        by_cases hkk : k = k1
        · subst hkk
          have n1 : treeGet ta k = none := by
            cases hg : treeGet ta k with
            | none => rfl
            | some w =>
              have := ha'.1 _ (treeGet_some_mem _ _ _ hg)
              simp only [bytesCompare_self] at this
              cases this
          have n2 : treeGet tb k = none := by
            cases hg : treeGet tb k with
            | none => rfl
            | some w =>
              have := hb'.1 _ (treeGet_some_mem _ _ _ hg)
              simp only [bytesCompare_self] at this
              cases this
          rw [n1, n2]
        · have := h k
          simpa [treeGet, hkk] using this
      rw [ih tb ha'.2 hb'.2 htail]

theorem replay_twice (es : List Entry) (hes : ∀ e ∈ es, e.op = SetOp ∨ e.op = DelOp)
    (mem : MemTable) (h : Ascending mem.sortedMap) :
    replay es (replay es mem) = replay es mem := by
  have h1 := replay_ascending es mem h
  have h2 := replay_ascending es (replay es mem) h1
  have hext := ascending_ext _ _ h2 h1 (fun k => by
    rw [treeGet_replay es hes (replay es mem) k, treeGet_replay es hes mem k]
    cases lastEntryOn es k <;> rfl)
  cases hr : replay es (replay es mem) with
  | mk l =>
    cases hr2 : replay es mem with
    | mk l2 =>
      rw [hr, hr2] at hext
      simp only at hext
      rw [hext]

/-- Whatever bytes the WAL holds, the loop of `loadWALtoMemTable` returns
nil and the memtable it leaves is the replay of a list of Set and Del
entries that depends on the bytes only: the entries `decodeNext` returned,
those with another op byte left out (`writeOperation` ignores them). -/
theorem loadLoop_replay (fuel : Nat) (file : Bytes) (hf : file.length < fuel) :
    ∃ es : List Entry, (∀ e ∈ es, e.op = SetOp ∨ e.op = DelOp)
      ∧ ∀ mem, loadLoop fuel file mem = (none, replay es mem) := by
  induction fuel generalizing file with
  | zero => omega
  | succ f ih =>
    rcases hd : decodeNext file with ⟨r, rest⟩
    cases r with
    | error e =>
      have he := decodeNext_error file rest e hd
      subst he
      refine ⟨[], by simp, fun mem => ?_⟩
      simp [loadLoop, hd, replay]
    | ok x =>
      obtain ⟨op, k, v⟩ := x
      have hlt := decodeNext_consumes file rest _ hd
      obtain ⟨es, hes, hload⟩ := ih rest (by omega)
      by_cases hop : op = SetOp ∨ op = DelOp
      · refine ⟨⟨op, k, v⟩ :: es, ?_, fun mem => ?_⟩
        · intro e he
          rcases List.mem_cons.1 he with h | h
          · rw [h]; exact hop
          · exact hes e h
        · simp only [loadLoop, hd, hload]
          rfl
      · refine ⟨es, hes, fun mem => ?_⟩
        have hsame : mem.writeOperation op k v = mem := by
          unfold MemTable.writeOperation
          rw [if_neg (fun h => hop (Or.inl h)), if_neg (fun h => hop (Or.inr h))]
        simp only [loadLoop, hd, hload, hsame]

/-- C21: for every WAL content made of well-encoded Set/Del entries and
every memtable (an ordered map: keys strictly ascending),
`loadWALtoMemTable` returns nil, and running it a second time leaves the
engine, and so the memtable (same keys, same stored blobs, same iteration
order), as the first run left it. -/
theorem replay_idempotent (db : lsmDB) (es : List Entry) (hwal : db.wal = encodeAll es)
    (hes : ∀ e ∈ es, WellEncoded e) (hasc : Ascending db.memTable.sortedMap) :
    db.loadWALtoMemTable.1 = none
      ∧ db.loadWALtoMemTable.2.loadWALtoMemTable = db.loadWALtoMemTable
      ∧ db.loadWALtoMemTable.2.loadWALtoMemTable.2.memTable.sortedMap
          = db.loadWALtoMemTable.2.memTable.sortedMap := by
  obtain ⟨read, hread, hloop⟩ := loadLoop_replay (db.wal.length + 1) db.wal (Nat.lt_succ_self _)
  have hload : ∀ d : lsmDB, d.wal = db.wal →
      d.loadWALtoMemTable = (none, { d with memTable := replay read d.memTable }) := by
    intro d hd
    unfold lsmDB.loadWALtoMemTable
    rw [hd, hloop]
  have h1 := hload db rfl
  have h2 := hload { db with memTable := replay read db.memTable } rfl
  simp only [replay_twice read hread db.memTable hasc] at h2
  have e1 : db.loadWALtoMemTable.1 = none := by rw [h1]
  have e2 : db.loadWALtoMemTable.2.loadWALtoMemTable = db.loadWALtoMemTable := by
    rw [h1]
    exact h2
  exact ⟨e1, e2, by rw [e2]⟩

/-- C21 at the WAL of scenario (f), replayed into a memtable that already
holds `"key2"` and `"key3"`. -/
theorem replay_idempotent_witness :
    sampleReplayDB.loadWALtoMemTable.2.loadWALtoMemTable.2.memTable.sortedMap
      = [([107, 101, 121, 49], [2]), ([107, 101, 121, 50], [1, 118, 97, 108, 117, 101, 50]),
         ([107, 101, 121, 51], [1, 2])] :=
  ((replay_idempotent sampleReplayDB sampleLog rfl
    (by
      intro e he
      simp only [sampleLog, List.mem_cons, List.mem_singleton, List.not_mem_nil, or_false] at he
      rcases he with h | h | h <;> subst h <;>
        first
          | exact ⟨Or.inl rfl, by decide, by decide⟩
          | exact ⟨Or.inr rfl, by decide, by decide⟩)
    (by unfold Ascending; decide)).2.2).trans (by decide)

/-! ## A failed flush (C22) -/

theorem flushEntriesWith_none (mem : MemTable) (e : Err) (its : List (Bytes × Bytes)) :
    flushEntriesWith mem e none its = flushEntries mem its := by
  induction its with
  | nil => rfl
  | cons it tl ih =>
    cases hm : mem.makeEntry it.1 <;> simp [flushEntriesWith, flushEntries, hm, ih]

/-- Without a fault the operating-system model agrees with
`flushToDisk`. -/
theorem flushToDiskWith_none (db : lsmDB) (e : Err) :
    db.flushToDiskWith none e = db.flushToDisk := by
  unfold lsmDB.flushToDiskWith lsmDB.flushToDisk
  cases hh : db.createHeader with
  | error p => rfl
  | ok header =>
    cases hw : (flushEntries db.memTable db.memTable.sortedMap).2 with
    | some err => simp [FlushFault.entry, flushEntriesWith_none, hw]
    | none =>
      cases hm : db.metadata <;>
        simp [FlushFault.entry, flushEntriesWith_none, hw, lsmDB.updateMetadataFile, hm]

theorem setWith_unfold (db : lsmDB) (fault : Option FlushFault) (e : Err) (key value : Bytes) :
    db.SetWith fault e key value =
      if db.memSizeThreshold ≤ ((db.memTable.Set key value).sizeInBytes : Int) then
        if ((db.buffered key value).flushToDiskWith fault e).1 = none then
          (none, { ((db.buffered key value).flushToDiskWith fault e).2 with memTable := ⟨[]⟩ })
        else (db.buffered key value).flushToDiskWith fault e
      else (none, db.buffered key value) := by
  unfold lsmDB.SetWith
  simp only [lsmDB.appendEntry, lsmDB.buffered]
  split_ifs with hth hf
  · revert hf
    generalize lsmDB.flushToDiskWith _ _ _ = res
    intro hf
    obtain ⟨r, db3⟩ := res
    simp only at hf
    subst hf
    rfl
  · revert hf
    generalize lsmDB.flushToDiskWith _ _ _ = res
    intro hf
    obtain ⟨r, db3⟩ := res
    cases r with
    | none => exact absurd rfl hf
    | some e => rfl
  · rfl

/-- Without a fault the operating-system model agrees with `Set`. -/
theorem setWith_none (db : lsmDB) (e : Err) (key value : Bytes) :
    db.SetWith none e key value = db.Set key value := by
  rw [setWith_unfold, set_unfold, flushToDiskWith_none]

/-- Whatever happens in `flushToDisk`, the memtable is not touched, and
the WAL is touched only when the flush returns nil. -/
theorem flushToDiskWith_buffers (db : lsmDB) (fault : Option FlushFault) (e : Err) :
    (db.flushToDiskWith fault e).2.memTable = db.memTable
      ∧ ((db.flushToDiskWith fault e).1 ≠ none → (db.flushToDiskWith fault e).2.wal = db.wal) := by
  unfold lsmDB.flushToDiskWith
  cases hh : db.createHeader with
  | error p => cases fault with
    | none => simp
    | some f => cases f <;> simp
  | ok header =>
    cases hw : (flushEntriesWith db.memTable e (FlushFault.entry fault)
        db.memTable.sortedMap).2 with
    | some err => cases fault with
      | none => simp [hw]
      | some f => cases f <;> simp [hw]
    | none =>
      cases hm : db.metadata with
      | none => cases fault with
        | none => simp [hw, lsmDB.updateMetadataFile, hm]
        | some f => cases f <;> simp [hw, lsmDB.updateMetadataFile, hm]
      | some c => cases fault with
        | none => simp [hw, lsmDB.updateMetadataFile, hm]
        | some f => cases f <;> simp [hw, lsmDB.updateMetadataFile, hm]

/-- Each fault makes the flush of a well-formed, non-empty memtable with
an existing metadata file fail with the error of the operating system,
provided a failing entry write is at a position the iteration reaches. -/
theorem flushToDiskWith_fails (db : lsmDB) (f : FlushFault) (e : Err)
    (hm : MemOK db.memTable.sortedMap) (hne : db.memTable.sortedMap ≠ [])
    (c : Bytes) (hmeta : db.metadata = some c)
    (hpos : ∀ i n, f = FlushFault.writeEntry i n → i < db.memTable.sortedMap.length) :
    (db.flushToDiskWith (some f) e).1 = some e := by
  have hrun : ∀ (its : List (Bytes × Bytes)), (∀ it ∈ its, it ∈ db.memTable.sortedMap) →
      (flushEntriesWith db.memTable e none its).2 = none
      ∧ ∀ i n, i < its.length → (flushEntriesWith db.memTable e (some (i, n)) its).2 = some e := by
    intro its
    induction its with
    | nil => intro _; exact ⟨rfl, fun i n h => by simp at h⟩
    | cons it tl ih =>
      intro hsub
      have h1 := makeEntry_of_mem db.memTable hm it (hsub it (List.mem_cons_self _ _))
      have ih' := ih (fun x hx => hsub x (List.mem_cons_of_mem _ hx))
      refine ⟨by simp [flushEntriesWith, h1, ih'.1], ?_⟩
      intro i n hi
      cases i with
      | zero => simp [flushEntriesWith, h1]
      | succ j =>
        simp only [flushEntriesWith, h1]
        exact ih'.2 j n (by simp only [List.length_cons] at hi; omega)
  have hall := hrun db.memTable.sortedMap (fun _ h => h)
  unfold lsmDB.flushToDiskWith
  cases f with
  | createFile => rfl
  | writeHeader n => simp [createHeader_eq db hne]
  | writeEntry i n =>
    simp [createHeader_eq db hne, FlushFault.entry, hall.2 i n (hpos i n rfl)]
  | openMetadata => simp [createHeader_eq db hne, FlushFault.entry, hall.1]
  | writeMetadata n => simp [createHeader_eq db hne, FlushFault.entry, hall.1, hmeta]
  | closeWal =>
    simp [createHeader_eq db hne, FlushFault.entry, hall.1, lsmDB.updateMetadataFile, hmeta]
  | reopenWal =>
    simp [createHeader_eq db hne, FlushFault.entry, hall.1, lsmDB.updateMetadataFile, hmeta]

/-- C22: whenever `flushToDisk` returns an error, at whichever call the
operating system fails (creating the SST file, writing the header or an
entry, opening or writing the metadata file, closing or reopening the
WAL) or the flush fails by itself, the memtable holds the same entries
and the WAL file holds the same bytes as before the flush began; and a
`Set` whose flush fails returns that error and leaves the memtable with
the new write and the earlier ones, not cleared, and the WAL with the
entry of the write appended. -/
theorem failed_flush_harmless (db : lsmDB) (fault : Option FlushFault) (e err : Err)
    (h : (db.flushToDiskWith fault e).1 = some err) :
    (db.flushToDiskWith fault e).2.memTable = db.memTable
      ∧ (db.flushToDiskWith fault e).2.wal = db.wal
      ∧ ∀ (d : lsmDB) (key value : Bytes), d.buffered key value = db →
          d.memSizeThreshold ≤ ((d.memTable.Set key value).sizeInBytes : Int) →
          (d.SetWith fault e key value).1 = some err
          ∧ (d.SetWith fault e key value).2.memTable = d.memTable.Set key value
          ∧ (d.SetWith fault e key value).2.wal = d.wal ++ (Entry.mk SetOp key value).encode := by
  obtain ⟨hmem, hwal⟩ := flushToDiskWith_buffers db fault e
  have hwal' := hwal (by rw [h]; simp)
  refine ⟨hmem, hwal', ?_⟩
  intro d key value hd hth
  have hne : ¬ ((d.buffered key value).flushToDiskWith fault e).1 = none := by
    rw [hd, h]; simp
  rw [setWith_unfold, if_pos hth, if_neg hne, hd]
  refine ⟨h, ?_, ?_⟩
  · rw [hmem, ← hd]; rfl
  · rw [hwal', ← hd]; rfl

/-- C22 at the engine after `Set("key1", "value1")` when closing the WAL
fails at the end of the flush: the flush returns the error, the SST file
and the metadata are written, memtable and WAL are as before. -/
theorem failed_flush_harmless_witness :
    (sampleBuffered.flushToDiskWith (some FlushFault.closeWal) Err.eof).1 = some Err.eof
      ∧ (sampleBuffered.flushToDiskWith (some FlushFault.closeWal) Err.eof).2.memTable
          = sampleBuffered.memTable
      ∧ (sampleBuffered.flushToDiskWith (some FlushFault.closeWal) Err.eof).2.wal
          = sampleBuffered.wal :=
  ⟨by decide,
    (failed_flush_harmless sampleBuffered (some FlushFault.closeWal) Err.eof Err.eof
      (by decide)).1,
    (failed_flush_harmless sampleBuffered (some FlushFault.closeWal) Err.eof Err.eof
      (by decide)).2.1⟩

/-! ## A successful Set (C1) and a successful flush (C9) -/

theorem flushEntriesWith_success (mem : MemTable) (e : Err) (fault : Option (Nat × Nat))
    (its : List (Bytes × Bytes)) (h : (flushEntriesWith mem e fault its).2 = none) :
    flushEntriesWith mem e fault its = flushEntries mem its := by
  induction its generalizing fault with
  | nil => cases fault <;> rfl
  | cons it tl ih =>
    cases hm : mem.makeEntry it.1 with
    | error p => cases fault <;> simp [flushEntriesWith, flushEntries, hm]
    | ok entry =>
      cases fault with
      | none => exact flushEntriesWith_none mem e _
      | some f =>
        obtain ⟨i, n⟩ := f
        cases i with
        | zero => simp [flushEntriesWith, hm] at h
        | succ j =>
          simp only [flushEntriesWith, hm] at h
          simp only [flushEntriesWith, flushEntries, hm, ih _ h]

/-- A flush that returns nil did not meet the fault: it did what
`flushToDisk` does. -/
theorem flushToDiskWith_success (db : lsmDB) (fault : Option FlushFault) (e : Err)
    (h : (db.flushToDiskWith fault e).1 = none) : db.flushToDiskWith fault e = db.flushToDisk := by
  cases fault with
  | none => exact flushToDiskWith_none db e
  | some f =>
    unfold lsmDB.flushToDiskWith at h
    cases hh : db.createHeader with
    | error p => cases f <;> simp [hh] at h
    | ok header =>
      cases hw : (flushEntriesWith db.memTable e (FlushFault.entry (some f))
          db.memTable.sortedMap).2 with
      | some err => cases f <;> simp [hh, hw] at h
      | none =>
        cases hm : db.metadata with
        | none => cases f <;> simp [hh, hw, hm, lsmDB.updateMetadataFile] at h
        | some c =>
          cases f with
          | writeEntry i n =>
            have hsame := flushEntriesWith_success db.memTable e _ _ hw
            unfold lsmDB.flushToDiskWith lsmDB.flushToDisk
            simp only [hh, hsame]
          | createFile => simp [hh, hw, hm, lsmDB.updateMetadataFile] at h
          | writeHeader n => simp [hh, hw, hm, lsmDB.updateMetadataFile] at h
          | openMetadata => simp [hh, hw, hm, lsmDB.updateMetadataFile] at h
          | writeMetadata n => simp [hh, hw, hm, lsmDB.updateMetadataFile] at h
          | closeWal => simp [hh, hw, hm, lsmDB.updateMetadataFile] at h
          | reopenWal => simp [hh, hw, hm, lsmDB.updateMetadataFile] at h

/-- C9 (amended): for every non-empty memtable built by `Set` and `Del`
calls with keys and values shorter than 2^32 bytes that holds fewer than
2^32 entries, and every counter `K`, a `flushToDisk` that returns nil
(whatever call of the operating system could have failed) has written the
file `f<K+1>.sst` described by `FlushArtifact`: header (magic, 4-byte
big-endian entry count, length-prefixed smallest and largest key,
version) followed by the encodings of all memtable entries in strictly
ascending key order, with the count equal to the number of entries and
the smallest and largest key equal to the first and last entry key. -/
theorem flush_artifact (db : lsmDB) (fault : Option FlushFault) (e : Err)
    (calls : List MemCall)
    (hmem : db.memTable = runCalls calls) (hb : ∀ c ∈ calls, c.Bounded)
    (hne : db.memTable.sortedMap ≠ [])
    (hcount : db.memTable.sortedMap.length < 4294967296)
    (hok : (db.flushToDiskWith fault e).1 = none) :
    FlushArtifact db (db.flushToDiskWith fault e).2 := by
  have hm : MemOK db.memTable.sortedMap := by rw [hmem]; exact runCalls_memOK calls hb
  have hblobs : ∀ it ∈ db.memTable.sortedMap, ValidBlob it.2 := fun it hit => (hm.2 it hit).2
  rw [flushToDiskWith_success db fault e hok]
  refine ⟨db.memTable.sortedMap.map blobEntry, encode4BytesInt db.memTable.sortedMap.length,
    encode4BytesInt (firstKey db.memTable.sortedMap).length,
    encode4BytesInt (lastKey db.memTable.sortedMap).length,
    firstKey db.memTable.sortedMap, lastKey db.memTable.sortedMap, ?_, ?_,
    encode4BytesInt_isBE32 _ (firstKey_length _ hm),
    encode4BytesInt_isBE32 _ (lastKey_length _ hm), ?_, ?_, ?_,
    blobEntry_keys _ hblobs, ?_⟩
  · rw [flushToDisk_file db hm hne]
    simp [sstImage, headerOf, List.append_assoc]
  · rw [List.length_map]
    exact encode4BytesInt_isBE32 _ hcount
  · rw [← List.head?_map, blobEntry_keys _ hblobs, List.head?_map]
    cases h : db.memTable.sortedMap with
    | nil => exact absurd h hne
    | cons a tl => simp [firstKey]
  · rw [← List.getLast?_map, blobEntry_keys _ hblobs, List.getLast?_map]
    obtain ⟨l, hl⟩ := getLast?_of_ne_nil _ hne
    simp [lastKey, hl]
  · rw [blobEntry_keys _ hblobs, List.pairwise_map]
    exact hm.1
  · intro e he
    obtain ⟨it, hit, rfl⟩ := List.mem_map.1 he
    exact blobEntry_get _ hm it hit

/-- C9 at scenario (d): the memtable that `Set("key1", "value1")` and
`Set("key2", "value2")` build, flushed without a failure. -/
theorem flush_artifact_witness :
    (sampleFilled.flushToDiskWith none Err.eof).1 = none
      ∧ FlushArtifact sampleFilled (sampleFilled.flushToDiskWith none Err.eof).2 :=
  ⟨by decide,
    flush_artifact sampleFilled none Err.eof
      [MemCall.set [107, 101, 121, 49] [118, 97, 108, 117, 101, 49],
       MemCall.set [107, 101, 121, 50] [118, 97, 108, 117, 101, 50]]
      (by decide)
      (by
        intro c hc
        simp only [List.mem_cons, List.mem_singleton, List.not_mem_nil, or_false] at hc
        rcases hc with h | h <;> rw [h] <;> exact ⟨by decide, by decide⟩)
      (by decide) (by decide) (by decide)⟩

/-! ## A crash before the WAL truncation (C24) -/

end LSM
